import Mathlib

/-!
Verification development for the bullet-journal text codec and mutation
engine (`src/main.rs`).  Lines of a day file are modelled as `List Char`
(the in-memory line sequence after `read_file_lines`, which splits the
file on newlines); the file system is a map from formatted dates to line
sequences.  All definitions are translated from the Rust source; names
follow the source where Lean allows it.
-/

set_option maxHeartbeats 1000000

/-- A single raw line of a day file (Rust `String`, newline-free). -/
abbrev Line := List Char

/-- Rust `str::strip_prefix`: `some r` iff `s = p ++ r`. -/
def strip_pre : List Char → List Char → Option (List Char)
  | [], s => some s
  | _ :: _, [] => none
  | p :: ps, c :: cs => if p = c then strip_pre ps cs else none

/-- Rust `str::trim_start`. -/
def trim_start (s : List Char) : List Char := s.dropWhile Char.isWhitespace

/-- Rust `str::trim_end`. -/
def trim_end (s : List Char) : List Char := (s.reverse.dropWhile Char.isWhitespace).reverse

/-- Rust `str::trim`. -/
def trim (s : List Char) : List Char := trim_end (trim_start s)

theorem length_dropWhile_le' (p : Char → Bool) (l : List Char) :
    (l.dropWhile p).length ≤ l.length := by
  induction l with
  | nil => simp [List.dropWhile]
  | cons c cs ih =>
    by_cases h : p c
    · simp only [List.dropWhile, h, List.length_cons]
      omega
    · simp [List.dropWhile, h]

/-- The scanning loop of `split_ws`; `acc` holds the current token reversed. -/
def split_ws_go : List Char → List Char → List (List Char)
  | [], acc => if acc = [] then [] else [acc.reverse]
  | c :: rest, acc =>
    if c.isWhitespace then
      if acc = [] then split_ws_go rest [] else acc.reverse :: split_ws_go rest []
    else split_ws_go rest (c :: acc)

/-- Rust `str::split_whitespace` (nonempty tokens, separators dropped). -/
def split_ws (s : List Char) : List (List Char) := split_ws_go s []

/-- Rust `[T]::join(" ")` on string slices. -/
def join_sp : List (List Char) → List Char
  | [] => []
  | [t] => t
  | t :: ts => t ++ ' ' :: join_sp ts

/-- The stripping loop of `trim_start_matches`, fuelled by the input length
(each successful strip of a nonempty pattern shortens the string). -/
def trim_start_matches_go : Nat → List Char → List Char → List Char
  | 0, _, s => s
  | fuel + 1, p, s =>
    match strip_pre p s with
    | some r => if r.length < s.length then trim_start_matches_go fuel p r else s
    | none => s

/-- Rust `str::trim_start_matches`: repeatedly strip a prefix. -/
def trim_start_matches (p s : List Char) : List Char :=
  trim_start_matches_go s.length p s

/-- Rust `str::replacen(from, to, 1)`: replace the first occurrence only. -/
def replace_first (pat rep : List Char) : List Char → List Char
  | [] => []
  | c :: cs =>
    match strip_pre pat (c :: cs) with
    | some r => rep ++ r
    | none => c :: replace_first pat rep cs

/-- Time of day carried by a meeting bullet (`chrono::NaiveTime` parsed via `%H:%M`,
seconds are always zero at these call sites). -/
structure Time where
  hour : Nat
  minute : Nat
deriving DecidableEq, Repr

def digitVal (c : Char) : Nat := c.toNat - 48

/-- One or two leading decimal digits, greedily (chrono numeric field of width 2). -/
def take_digits2 : List Char → Option (Nat × List Char)
  | [] => none
  | c1 :: rest =>
    if c1.isDigit then
      match rest with
      | c2 :: rest2 =>
        if c2.isDigit then some (digitVal c1 * 10 + digitVal c2, rest2)
        else some (digitVal c1, rest)
      | [] => some (digitVal c1, [])
    else none

/-- Rust `NaiveTime::parse_from_str(s, "%H:%M")`: 1–2 digit hour, `:`, 1–2 digit
minute, whole input consumed, hour < 24 and minute < 60. -/
def parse_time_hm (s : List Char) : Option Time :=
  match take_digits2 s with
  | some (h, ':' :: rest) =>
    match take_digits2 rest with
    | some (m, []) => if h < 24 ∧ m < 60 then some ⟨h, m⟩ else none
    | _ => none
  | _ => none

/-- Rust `str::parse::<u32>()`: optional `+`, one or more digits, value below `2^32`. -/
def parse_u32 (s : List Char) : Option Nat :=
  let digits := match s with
    | '+' :: rest => rest
    | _ => s
  if digits ≠ [] ∧ digits.all Char.isDigit then
    let v := digits.foldl (fun a c => a * 10 + digitVal c) 0
    if v < 2 ^ 32 then some v else none
  else none

/-- Zero-padded two-digit decimal rendering of a field of `%H:%M`. -/
def pad2 (n : Nat) : List Char :=
  if n < 10 then '0' :: Nat.toDigits 10 n else Nat.toDigits 10 n

/-- Rust `t.format("%H:%M")`. -/
def fmt_hm (t : Time) : List Char := pad2 t.hour ++ ':' :: pad2 t.minute

/-- Rust `"- [ ] "`. -/
def open_marker : Line := ['-', ' ', '[', ' ', ']', ' ']

/-- Rust `"- [x] "`. -/
def done_marker : Line := ['-', ' ', '[', 'x', ']', ' ']

/-- Rust `"  - note: "`. -/
def note_marker : Line := [' ', ' ', '-', ' ', 'n', 'o', 't', 'e', ':', ' ']

/-- Rust `"[mtg "`. -/
def mtg_marker : Line := ['[', 'm', 't', 'g', ' ']

/-- Rust `"(!!!) "`. -/
def prio3_marker : Line := ['(', '!', '!', '!', ')', ' ']

/-- Rust `"(!!) "`. -/
def prio2_marker : Line := ['(', '!', '!', ')', ' ']

/-- Rust `"(!) "`. -/
def prio1_marker : Line := ['(', '!', ')', ' ']

/-- A decoded entry (Rust struct `Bullet`). -/
structure Bullet where
  line_index : Nat
  visible_index : Nat
  completed : Bool
  text : Line
  priority : Option Nat
  tags : List Line
  notes : List Line
  meeting_time : Option Time
  meeting_duration_min : Option Nat
deriving DecidableEq, Repr

/-- Priority stripping at the head of `parse_text_meta_only`:
`(!!!) ` → 3, `(!!) ` → 2, `(!) ` → 1, checked in that order. -/
def strip_prio (t : Line) : Option Nat × Line :=
  match strip_pre prio3_marker t with
  | some r => (some 3, r)
  | none =>
    match strip_pre prio2_marker t with
    | some r => (some 2, r)
    | none =>
      match strip_pre prio1_marker t with
      | some r => (some 1, r)
      | none => (none, t)

/-- The token loop of `parse_text_meta_only`: returns (kept tokens, tags).
A token starting with `#` is dropped from the kept text; it becomes a tag
iff something follows the `#`. -/
def tag_split : List (List Char) → List (List Char) × List (List Char)
  | [] => ([], [])
  | p :: ps =>
    let r := tag_split ps
    match strip_pre ['#'] p with
    | some t => if t = [] then (r.1, r.2) else (r.1, t :: r.2)
    | none => (p :: r.1, r.2)

/-- Rust `parse_text_meta_only`: strip priority, split on whitespace, extract
`#`-tokens as tags, rejoin the rest with single spaces. -/
def parse_text_meta_only (rest : Line) : Line × Option Nat × List Line :=
  let pt := strip_prio rest
  let parts := split_ws pt.2
  let kt := tag_split parts
  (join_sp kt.1, pt.1, kt.2)

/-- Rust `str::find(']')` viewed as a splitter: `some (before, after)` with
`s = before ++ ']' :: after` and no `]` in `before`. -/
def split_close : List Char → Option (List Char × List Char)
  | [] => none
  | c :: cs =>
    if c = ']' then some ([], cs)
    else
      match split_close cs with
      | some (a, b) => some (c :: a, b)
      | none => none

/-- Result of `parse_text_meeting_meta`. -/
structure TMeta where
  text : Line
  pr : Option Nat
  tags : List Line
  mt : Option Time
  dur : Option Nat
deriving DecidableEq, Repr

/-- Rust `parse_text_meeting_meta`: optional `[mtg HH:MM]` / `[mtg HH:MM D]`
bracket (consumed only when `[mtg ` is present **and** a closing `]` is
found), then priority/tags/text. A malformed time token leaves the start
time unset; the duration token is parsed independently. -/
def parse_text_meeting_meta (rest : Line) : TMeta :=
  match strip_pre mtg_marker rest with
  | some body =>
    match split_close body with
    | some (spec, after) =>
      let parts := split_ws spec
      let mt := match parts with
        | [] => none
        | p0 :: _ => parse_time_hm p0
      let dur := match parts with
        | _ :: p1 :: _ => parse_u32 p1
        | _ => none
      let remaining := trim_start after
      let m := parse_text_meta_only remaining
      ⟨m.1, m.2.1, m.2.2, mt, dur⟩
    | none =>
      let m := parse_text_meta_only rest
      ⟨m.1, m.2.1, m.2.2, none, none⟩
  | none =>
    let m := parse_text_meta_only rest
    ⟨m.1, m.2.1, m.2.2, none, none⟩

/-- Rust `collect_notes`: consume consecutive `  - note: ` lines. -/
def collect_notes : List Line → List Line
  | [] => []
  | l :: rest =>
    match strip_pre note_marker l with
    | some n => n :: collect_notes rest
    | none => []

/-- Build a `Bullet` from a parsed entry line. -/
def mk_bullet (idx visible : Nat) (completed : Bool) (m : TMeta) (notes : List Line) : Bullet :=
  ⟨idx, visible, completed, m.text, m.pr, m.tags, notes, m.mt, m.dur⟩

/-- The scanning loop of `parse_bullets`; `idx` is the absolute index of the
head of the remaining suffix, `visible` the number of bullets seen so far. -/
def parse_bullets_aux : List Line → Nat → Nat → List Bullet
  | [], _, _ => []
  | l :: rest, idx, visible =>
    let t := trim_start l
    match strip_pre open_marker t with
    | some r =>
      mk_bullet idx (visible + 1) false (parse_text_meeting_meta r) (collect_notes rest) ::
        parse_bullets_aux rest (idx + 1) (visible + 1)
    | none =>
      match strip_pre done_marker t with
      | some r =>
        mk_bullet idx (visible + 1) true (parse_text_meeting_meta r) (collect_notes rest) ::
          parse_bullets_aux rest (idx + 1) (visible + 1)
      | none => parse_bullets_aux rest (idx + 1) visible

/-- Rust `parse_bullets`. -/
def parse_bullets (lines : List Line) : List Bullet := parse_bullets_aux lines 0 0

/-- Priority prefix rendered by `add_bullet`. -/
def prio_render : Option Nat → Line
  | some 3 => prio3_marker
  | some 2 => prio2_marker
  | some 1 => prio1_marker
  | _ => []

/-- Tag suffix rendered by `add_bullet`: one leading-space `#tag` per tag. -/
def tag_render : List Line → Line
  | [] => []
  | t :: ts => ' ' :: '#' :: t ++ tag_render ts

/-- Rust `  - note: ` line rendered by `add_bullet`. -/
def note_render (n : Line) : Line := note_marker ++ n

/-- Rust `add_bullet`, at the line-sequence level: append the new entry line and
its note lines. -/
def add_bullet (lines : List Line) (text : Line) (priority : Option Nat)
    (tags notes : List Line) : List Line :=
  lines ++ (open_marker ++ prio_render priority ++ trim text ++ tag_render tags) ::
    notes.map note_render

/-- Rust `add_meeting`: prefix the canonical meeting bracket to the title and add
with no priority. -/
def meeting_bracket_render (t : Time) (dur : Option Nat) : Line :=
  mtg_marker ++ fmt_hm t ++ (match dur with
    | some d => ' ' :: Nat.toDigits 10 d
    | none => []) ++ (']' :: [' '])

/-- Rust `add_meeting` (the duration is always rendered there). -/
def add_meeting (lines : List Line) (t : Time) (dur : Nat) (title : Line)
    (tags notes : List Line) : List Line :=
  add_bullet lines (mtg_marker ++ fmt_hm t ++ ' ' :: Nat.toDigits 10 dur ++ ']' :: ' ' :: title)
    none tags notes

/-- Error taxonomy of the mutation engine (spec §7). -/
inductive BjError where
  | notFound
  | alreadyCompleted
  | invalidOperation
  | storageUnavailable
deriving DecidableEq, Repr

instance {ε α : Type} [DecidableEq ε] [DecidableEq α] : DecidableEq (Except ε α)
  | .error e, .error f =>
    decidable_of_iff (e = f) (by simp)
  | .error _, .ok _ => isFalse (by simp)
  | .ok _, .error _ => isFalse (by simp)
  | .ok a, .ok b =>
    decidable_of_iff (a = b) (by simp)

/-- Rust `mark_done`: find the entry by visible index; if its line starts (after
leading whitespace) with the open marker, replace the first occurrence of
the open marker by the done marker; otherwise leave the line unchanged. -/
def mark_done (lines : List Line) (id : Nat) : Except BjError (List Line) :=
  match (parse_bullets lines).find? (fun b => b.visible_index == id) with
  | none => .error .notFound
  | some target =>
    let raw := lines.getD target.line_index []
    let replaced :=
      if (strip_pre open_marker (trim_start raw)).isSome then
        replace_first open_marker done_marker raw
      else raw
    .ok (lines.set target.line_index replaced)

/-- The note-scan loop of `delete_bullet`, over the suffix starting at
absolute index `i` (the line after the target entry): blank lines are
skipped, two-space-indented lines whose trimmed form does not start with
`- ` are collected for removal, anything else stops the scan. -/
def delete_scan : List Line → Nat → List Nat
  | [], _ => []
  | l :: rest, i =>
    if trim l = [] then delete_scan rest (i + 1)
    else if (strip_pre ([' ', ' ']) l).isSome &&
        !(strip_pre (['-', ' ']) (trim_start l)).isSome then
      i :: delete_scan rest (i + 1)
    else []

/-- Rust `delete_bullet`: remove the target entry line plus the lines collected by
the scan, erasing indices in descending order. -/
def delete_bullet (lines : List Line) (id : Nat) : Except BjError (List Line) :=
  match (parse_bullets lines).find? (fun b => b.visible_index == id) with
  | none => .error .notFound
  | some target =>
    let to_remove := target.line_index ::
      delete_scan (lines.drop (target.line_index + 1)) (target.line_index + 1)
    .ok (to_remove.foldr (fun i ls => ls.eraseIdx i) lines)

/-- A formatted date (`YYYY-MM-DD`); only compared for equality and used in
notification keys. -/
abbrev Date := List Char

/-- The per-date file store. -/
abbrev FS := Date → List Line

def fs_set (fs : FS) (d : Date) (ls : List Line) : FS :=
  fun d2 => if d2 = d then ls else fs d2

/-- Rust `write_file_lines` through a storage collaborator that may fail on some
dates (`wf d = true` means writing the file of date `d` fails). -/
def save_file (wf : Date → Bool) (fs : FS) (d : Date) (ls : List Line) :
    Option BjError × FS :=
  if wf d then (some .storageUnavailable, fs) else (none, fs_set fs d ls)

/-- Rust `add_bullet` as a whole-file operation (read, append, write). -/
def add_bullet_fs (wf : Date → Bool) (fs : FS) (d : Date) (text : Line)
    (priority : Option Nat) (tags notes : List Line) : Option BjError × FS :=
  save_file wf fs d (add_bullet (fs d) text priority tags notes)

/-- The body reconstruction in `migrate_one` / `migrate_open`: re-render the
meeting bracket (if any) in front of the tag-stripped text. -/
def reconstruct_body (m : TMeta) : Line :=
  (match m.mt with
    | some t => meeting_bracket_render t m.dur
    | none => []) ++ m.text

/-- Rust `migrate_one`: fail on identical dates, missing id, or completed entry;
otherwise add the reconstructed entry (without notes) to the destination,
then remove the single source line and save the source. -/
def migrate_one (wf : Date → Bool) (fs : FS) (dfrom dto : Date) (id : Nat) :
    Option BjError × FS :=
  if dfrom = dto then (some .invalidOperation, fs)
  else
    let from_lines := fs dfrom
    match (parse_bullets from_lines).find? (fun b => b.visible_index == id) with
    | none => (some .notFound, fs)
    | some target =>
      if target.completed then (some .alreadyCompleted, fs)
      else
        let raw := from_lines.getD target.line_index []
        let text0 := trim_start_matches open_marker (trim_start raw)
        let m := parse_text_meeting_meta text0
        let r := add_bullet_fs wf fs dto (reconstruct_body m) m.pr m.tags []
        match r.1 with
        | some e => (some e, r.2)
        | none => save_file wf r.2 dfrom (from_lines.eraseIdx target.line_index)

/-- The bullet loop of `migrate_open`, over the decode snapshot in reverse
order; `cur` is the in-memory source line sequence being edited. -/
def migrate_open_go (wf : Date → Bool) (dto : Date) :
    List Bullet → List Line → FS → Option BjError × (List Line × FS)
  | [], cur, fs => (none, cur, fs)
  | b :: bs, cur, fs =>
    if b.completed then migrate_open_go wf dto bs cur fs
    else
      let raw := cur.getD b.line_index []
      let text0 := trim_start_matches open_marker (trim_start raw)
      let m := parse_text_meeting_meta text0
      let r := add_bullet_fs wf fs dto (reconstruct_body m) m.pr m.tags []
      match r.1 with
      | some e => (some e, cur, r.2)
      | none => migrate_open_go wf dto bs (cur.eraseIdx b.line_index) r.2

/-- Rust `migrate_open`: snapshot the source once, move every open entry of the
snapshot (removals in descending line order), then save the source once. -/
def migrate_open (wf : Date → Bool) (fs : FS) (dfrom dto : Date) :
    Option BjError × FS :=
  if dfrom = dto then (some .invalidOperation, fs)
  else
    let from_lines := fs dfrom
    let bullets := parse_bullets from_lines
    let r := migrate_open_go wf dto bullets.reverse from_lines fs
    match r.1 with
    | some e => (some e, r.2.2)
    | none => save_file wf r.2.2 dfrom r.2.1

/-- Notification key `date|HH:MM`. -/
def notify_key (today : Date) (t : Time) : Line := today ++ '|' :: fmt_hm t

/-- Seconds-of-day of a parsed meeting time (seconds component is zero). -/
def time_secs (t : Time) : Int := (t.hour : Int) * 3600 + (t.minute : Int) * 60

/-- Rust `Duration::num_minutes`: whole minutes, truncation toward zero. -/
def num_minutes (secs : Int) : Int := Int.tdiv secs 60

/-- The candidate loop of `notify_upcoming_meetings`: returns the keys fired
(one per delivered notification, in bullet order).  The dedup check is
against the set loaded at the start of the invocation. -/
def notify_go (window : Int) (today : Date) (now : Int) (sent : List Line) :
    List Bullet → List Line
  | [] => []
  | b :: bs =>
    match b.meeting_time with
    | none => notify_go window today now sent bs
    | some t =>
      let key := notify_key today t
      if key ∈ sent then notify_go window today now sent bs
      else
        let diff := num_minutes (time_secs t - now)
        if 0 ≤ diff ∧ diff ≤ window then key :: notify_go window today now sent bs
        else notify_go window today now sent bs

/-- Rust `notify_upcoming_meetings`: fired keys and the persisted state after the
invocation (the state file is rewritten only when something fired). -/
def notify_upcoming_meetings (window : Int) (today : Date) (now : Int)
    (lines : List Line) (sent : List Line) : List Line × List Line :=
  let fired := notify_go window today now sent (parse_bullets lines)
  (fired, if fired = [] then sent else sent ++ fired)

/-- A line that starts a new entry after stripping leading whitespace. -/
def is_bullet_line (l : Line) : Bool :=
  (strip_pre open_marker (trim_start l)).isSome ||
    (strip_pre done_marker (trim_start l)).isSome

theorem strip_pre_iff {p s r : List Char} : strip_pre p s = some r ↔ s = p ++ r := by
  induction p generalizing s with
  | nil => simp [strip_pre]
  | cons a ps ih =>
    cases s with
    | nil => simp [strip_pre]
    | cons c cs =>
      by_cases h : a = c
      · subst h
        simp only [strip_pre, if_pos rfl, List.cons_append, List.cons.injEq, true_and]
        exact ih
      · simp [strip_pre, h, Ne.symm h]

theorem strip_pre_append (p r : List Char) : strip_pre p (p ++ r) = some r :=
  strip_pre_iff.mpr rfl

theorem trim_start_cons_of_not_ws {c : Char} (h : c.isWhitespace = false) (s : List Char) :
    trim_start (c :: s) = c :: s := by
  simp [trim_start, List.dropWhile_cons, h]

theorem trim_start_cons_of_ws {c : Char} (h : c.isWhitespace = true) (s : List Char) :
    trim_start (c :: s) = trim_start s := by
  simp [trim_start, List.dropWhile_cons, h]

theorem trim_start_open_append (r : Line) :
    trim_start (open_marker ++ r) = open_marker ++ r := by
  simpa [open_marker] using trim_start_cons_of_not_ws (c := '-') (by decide) _

theorem trim_start_note_append (r : Line) :
    trim_start (note_marker ++ r) =
      ['-', ' ', 'n', 'o', 't', 'e', ':', ' '] ++ r := by
  show trim_start (' ' :: ' ' :: '-' :: _) = _
  rw [trim_start_cons_of_ws (by decide), trim_start_cons_of_ws (by decide),
    trim_start_cons_of_not_ws (by decide)]
  rfl

theorem is_bullet_line_open (r : Line) : is_bullet_line (open_marker ++ r) = true := by
  simp [is_bullet_line, trim_start_open_append, strip_pre_append]

theorem is_bullet_line_note (n : Line) : is_bullet_line (note_render n) = false := by
  have h := trim_start_note_append n
  simp only [is_bullet_line, note_render, h, Bool.or_eq_false_iff]
  constructor
  · show (strip_pre ['-', ' ', '[', ' ', ']', ' '] ('-' :: ' ' :: 'n' :: _)).isSome = false
    simp [strip_pre]
  · show (strip_pre ['-', ' ', '[', 'x', ']', ' '] ('-' :: ' ' :: 'n' :: _)).isSome = false
    simp [strip_pre]

theorem countP_bullet_add (lines : List Line) (text : Line) (pr : Option Nat)
    (tags notes : List Line) :
    (add_bullet lines text pr tags notes).countP is_bullet_line =
      lines.countP is_bullet_line + 1 := by
  unfold add_bullet
  rw [List.countP_append, List.countP_cons]
  have h1 : is_bullet_line (open_marker ++ (prio_render pr ++ trim text ++ tag_render tags))
      = true := is_bullet_line_open _
  have h2 : (notes.map note_render).countP is_bullet_line = 0 := by
    induction notes with
    | nil => rfl
    | cons n ns ih => simp [List.countP_cons, ih, is_bullet_line_note]
  simp only [List.append_assoc] at h1 ⊢
  simp [h1, h2]

theorem parse_bullets_aux_map_vis (ls : List Line) (idx v : Nat) :
    (parse_bullets_aux ls idx v).map (fun b => b.visible_index) =
      List.range' (v + 1) (ls.countP is_bullet_line) := by
  induction ls generalizing idx v with
  | nil => simp [parse_bullets_aux]
  | cons l rest ih =>
    rw [List.countP_cons]
    cases ho : strip_pre open_marker (trim_start l) with
    | some r =>
      have hb : is_bullet_line l = true := by simp [is_bullet_line, ho]
      simp only [parse_bullets_aux, ho, List.map_cons, ih, hb, if_pos, mk_bullet]
      rw [List.range'_succ]
    | none =>
      cases hd : strip_pre done_marker (trim_start l) with
      | some r =>
        have hb : is_bullet_line l = true := by simp [is_bullet_line, hd]
        simp only [parse_bullets_aux, ho, hd, List.map_cons, ih, hb, if_pos, mk_bullet]
        rw [List.range'_succ]
      | none =>
        have hb : is_bullet_line l = false := by simp [is_bullet_line, ho, hd]
        simp [parse_bullets_aux, ho, hd, ih, hb]

theorem parse_bullets_aux_length (ls : List Line) (idx v : Nat) :
    (parse_bullets_aux ls idx v).length = ls.countP is_bullet_line := by
  have := congrArg List.length (parse_bullets_aux_map_vis ls idx v)
  simpa using this

/-- The arguments of one `add` call: text, priority, tags, notes. -/
abbrev AddArgs := Line × Option Nat × List Line × List Line

/-- A sequence of `add` calls applied to a starting line sequence. -/
def apply_adds (init : List Line) (args : List AddArgs) : List Line :=
  args.foldl (fun ls a => add_bullet ls a.1 a.2.1 a.2.2.1 a.2.2.2) init

theorem countP_bullet_apply_adds (init : List Line) (args : List AddArgs) :
    (apply_adds init args).countP is_bullet_line =
      init.countP is_bullet_line + args.length := by
  induction args generalizing init with
  | nil => simp [apply_adds]
  | cons a as ih =>
    show (apply_adds (add_bullet init a.1 a.2.1 a.2.2.1 a.2.2.2) as).countP _ = _
    rw [ih, countP_bullet_add, List.length_cons]
    omega

theorem migrate_open_go_dest_fail (wf : Date → Bool) (dto : Date)
    (h : wf dto = true) (bs : List Bullet) (cur : List Line) (fs : FS) :
    (migrate_open_go wf dto bs cur fs).2 = (cur, fs) := by
  induction bs with
  | nil => rfl
  | cons b rest ih =>
    by_cases hc : b.completed
    · simp [migrate_open_go, hc, ih]
    · simp [migrate_open_go, hc, add_bullet_fs, save_file, h]

/-- C4: starting from any initial line sequence, sequential `add` calls grow
the decoded entry list one-for-one; from the empty file, N adds decode to
exactly N entries with visible indices `1..N`; and in general `decode`
assigns visible indices `1..count` in line order (strictly increasing,
contiguous, starting at 1). -/
theorem add_seq_visible_indices (args : List AddArgs) (lines : List Line) :
    (parse_bullets (apply_adds [] args)).length = args.length ∧
    (parse_bullets (apply_adds [] args)).map (fun b => b.visible_index) =
      List.range' 1 args.length ∧
    (parse_bullets lines).map (fun b => b.visible_index) =
      List.range' 1 (parse_bullets lines).length := by
  have hc : (apply_adds [] args).countP is_bullet_line = args.length := by
    rw [countP_bullet_apply_adds]; simp
  refine ⟨?_, ?_, ?_⟩
  · rw [parse_bullets, parse_bullets_aux_length, hc]
  · rw [parse_bullets, parse_bullets_aux_map_vis, hc]
  · rw [parse_bullets, parse_bullets_aux_map_vis, parse_bullets_aux_length]

/-- C5: `migrate_one` fails with `InvalidOperation` when the dates are equal;
otherwise with `NotFound` when no entry has the visible id; otherwise with
`AlreadyCompleted` when the matched entry is completed; and succeeds when
none of these hold (absent storage failures). -/
theorem migrate_one_error_conditions (wf : Date → Bool) (fs : FS)
    (dfrom dto : Date) (id : Nat) :
    (dfrom = dto → migrate_one wf fs dfrom dto id = (some .invalidOperation, fs)) ∧
    (dfrom ≠ dto →
      (parse_bullets (fs dfrom)).find? (fun b => b.visible_index == id) = none →
      migrate_one wf fs dfrom dto id = (some .notFound, fs)) ∧
    (∀ b, dfrom ≠ dto →
      (parse_bullets (fs dfrom)).find? (fun b => b.visible_index == id) = some b →
      b.completed = true →
      migrate_one wf fs dfrom dto id = (some .alreadyCompleted, fs)) ∧
    (∀ b, dfrom ≠ dto →
      (parse_bullets (fs dfrom)).find? (fun b => b.visible_index == id) = some b →
      b.completed = false → wf dto = false → wf dfrom = false →
      (migrate_one wf fs dfrom dto id).1 = none) := by
  refine ⟨?_, ?_, ?_, ?_⟩
  · intro h; simp [migrate_one, h]
  · intro h hf; simp [migrate_one, h, hf]
  · intro b h hf hc; simp [migrate_one, h, hf, hc]
  · intro b h hf hc hto hfrom
    simp [migrate_one, h, hf, hc, add_bullet_fs, save_file, hto, hfrom]

theorem migrate_one_error_conditions_witness :
    (let fs : FS := fun d =>
      if d = ['a'] then [open_marker ++ ['A'], done_marker ++ ['B']] else []
     migrate_one (fun _ => false) fs ['a'] ['a'] 1 = (some .invalidOperation, fs) ∧
     migrate_one (fun _ => false) fs ['a'] ['b'] 3 = (some .notFound, fs) ∧
     migrate_one (fun _ => false) fs ['a'] ['b'] 2 = (some .alreadyCompleted, fs) ∧
     (migrate_one (fun _ => false) fs ['a'] ['b'] 1).1 = none) := by
  refine ⟨?_, ?_, ?_, ?_⟩
  · exact (migrate_one_error_conditions _ _ _ _ _).1 rfl
  · exact (migrate_one_error_conditions _ _ _ _ _).2.1 (by decide) (by decide)
  · exact (migrate_one_error_conditions _ _ _ _ _).2.2.1
      ⟨1, 2, true, ['B'], none, [], [], none, none⟩
      (by decide) (by decide) (by decide)
  · exact (migrate_one_error_conditions _ _ _ _ _).2.2.2
      ⟨0, 1, false, ['A'], none, [], [], none, none⟩
      (by decide) (by decide) (by decide) rfl rfl

/-- C6: when the write to the destination file fails, neither
`migrate_one` nor `migrate_open` mutates the file of the source date: the source
removal and save happen only after the destination add has succeeded. -/
theorem migrate_dest_fail_source_untouched (wf : Date → Bool) (fs : FS)
    (dfrom dto : Date) (id : Nat) (h : wf dto = true) :
    (migrate_one wf fs dfrom dto id).2 dfrom = fs dfrom ∧
    (migrate_open wf fs dfrom dto).2 dfrom = fs dfrom := by
  constructor
  · unfold migrate_one
    by_cases he : dfrom = dto
    · simp [he]
    · simp only [if_neg he]
      cases hf : (parse_bullets (fs dfrom)).find? (fun b => b.visible_index == id) with
      | none => rfl
      | some target =>
        by_cases hc : target.completed
        · simp [hc]
        · simp [hc, add_bullet_fs, save_file, h]
  · unfold migrate_open
    by_cases he : dfrom = dto
    · simp [he]
    · simp only [if_neg he]
      rw [migrate_open_go_dest_fail wf dto h]
      cases hr : (migrate_open_go wf dto (parse_bullets (fs dfrom)).reverse
          (fs dfrom) fs).1 with
      | some e => rfl
      | none =>
        simp only [save_file]
        by_cases hw : wf dfrom
        · simp [hw]
        · simp [hw, fs_set]

theorem migrate_dest_fail_source_untouched_witness :
    (let fs : FS := fun d => if d = ['a'] then [open_marker ++ ['A']] else []
     let wf : Date → Bool := fun d => d = ['b']
     wf ['b'] = true ∧
     (migrate_one wf fs ['a'] ['b'] 1).2 ['a'] = fs ['a'] ∧
     (migrate_open wf fs ['a'] ['b']).2 ['a'] = fs ['a']) := by
  refine ⟨by decide, ?_, ?_⟩
  · exact (migrate_dest_fail_source_untouched _ _ _ _ 1 (by decide)).1
  · exact (migrate_dest_fail_source_untouched _ _ _ _ 1 (by decide)).2

theorem strip_pre_eq_none_iff {p s : List Char} :
    strip_pre p s = none ↔ ∀ r, s ≠ p ++ r := by
  cases h : strip_pre p s with
  | some r =>
    simp only [reduceCtorEq, false_iff, not_forall, not_not]
    exact ⟨r, strip_pre_iff.mp h⟩
  | none =>
    simp only [true_iff]
    intro r hr
    rw [hr, strip_pre_append] at h
    exact Option.noConfusion h

theorem trim_start_ws_append {wsp : List Char} (h : ∀ c ∈ wsp, c.isWhitespace)
    (s : List Char) : trim_start (wsp ++ s) = trim_start s := by
  induction wsp with
  | nil => rfl
  | cons c cs ih =>
    rw [List.cons_append, trim_start_cons_of_ws (h c (List.mem_cons_self c cs)),
      ih (fun d hd => h d (List.mem_cons_of_mem c hd))]

theorem getD_of_getElem? {l : List Line} {i : Nat} {a : Line} (h : l[i]? = some a) :
    l.getD i [] = a := by
  rw [List.getD_eq_getElem?_getD, h]; rfl

theorem set_getElem_self {l : List Line} {i : Nat} {a : Line} (h : l[i]? = some a) :
    l.set i a = l := by
  have hi : i < l.length := by
    by_contra hn
    rw [List.getElem?_eq_none (by omega)] at h
    exact Option.noConfusion h
  rw [List.set_eq_take_append_cons_drop, if_pos hi]
  conv_rhs => rw [← List.take_append_drop i l]
  rw [List.drop_eq_getElem_cons hi]
  have := List.getElem?_eq_getElem hi
  rw [this] at h
  simp only [Option.some.injEq] at h
  rw [h]

/-- The entry-line decomposition carried by every decoded bullet. -/
def bullet_line_ok (ls : List Line) (idx : Nat) (b : Bullet) : Prop :=
  idx ≤ b.line_index ∧ ∃ l, ls[b.line_index - idx]? = some l ∧
    ((b.completed = false ∧ ∃ r, trim_start l = open_marker ++ r) ∨
     (b.completed = true ∧ ∃ r, trim_start l = done_marker ++ r))

theorem parse_bullets_aux_mem {b : Bullet} :
    ∀ (ls : List Line) (idx v : Nat), b ∈ parse_bullets_aux ls idx v →
      bullet_line_ok ls idx b := by
  intro ls
  induction ls with
  | nil => intro idx v h; simp [parse_bullets_aux] at h
  | cons l rest ih =>
    intro idx v h
    have step : b ∈ parse_bullets_aux rest (idx + 1) v ∨
        b ∈ parse_bullets_aux rest (idx + 1) (v + 1) ∨
        (∃ r, trim_start l = open_marker ++ r ∧
          b = mk_bullet idx (v + 1) false (parse_text_meeting_meta r) (collect_notes rest)) ∨
        (∃ r, trim_start l = done_marker ++ r ∧
          b = mk_bullet idx (v + 1) true (parse_text_meeting_meta r) (collect_notes rest)) := by
      simp only [parse_bullets_aux] at h
      cases ho : strip_pre open_marker (trim_start l) with
      | some r =>
        rw [ho] at h
        rcases List.mem_cons.mp h with h1 | h1
        · exact Or.inr (Or.inr (Or.inl ⟨r, strip_pre_iff.mp ho, h1⟩))
        · exact Or.inr (Or.inl h1)
      | none =>
        rw [ho] at h
        cases hd : strip_pre done_marker (trim_start l) with
        | some r =>
          rw [hd] at h
          rcases List.mem_cons.mp h with h1 | h1
          · exact Or.inr (Or.inr (Or.inr ⟨r, strip_pre_iff.mp hd, h1⟩))
          · exact Or.inr (Or.inl h1)
        | none =>
          rw [hd] at h
          exact Or.inl h
    have tail_case : b ∈ parse_bullets_aux rest (idx + 1) v ∨
        b ∈ parse_bullets_aux rest (idx + 1) (v + 1) → bullet_line_ok (l :: rest) idx b := by
      intro hm
      have hb : bullet_line_ok rest (idx + 1) b := by
        rcases hm with hm | hm
        · exact ih (idx + 1) v hm
        · exact ih (idx + 1) (v + 1) hm
      obtain ⟨hle, l', hget, hrest⟩ := hb
      refine ⟨by omega, l', ?_, hrest⟩
      have harith : b.line_index - idx = (b.line_index - (idx + 1)) + 1 := by omega
      rw [harith, List.getElem?_cons_succ]
      exact hget
    rcases step with hm | hm | ⟨r, hr, hb⟩ | ⟨r, hr, hb⟩
    · exact tail_case (Or.inl hm)
    · exact tail_case (Or.inr hm)
    · refine ⟨by rw [hb]; exact Nat.le_refl idx, l, ?_, ?_⟩
      · rw [hb]; simp [mk_bullet]
      · exact Or.inl ⟨by rw [hb]; rfl, r, hr⟩
    · refine ⟨by rw [hb]; exact Nat.le_refl idx, l, ?_, ?_⟩
      · rw [hb]; simp [mk_bullet]
      · exact Or.inr ⟨by rw [hb]; rfl, r, hr⟩

theorem parse_bullets_mem {b : Bullet} {lines : List Line}
    (h : b ∈ parse_bullets lines) :
    ∃ l, lines[b.line_index]? = some l ∧
      ((b.completed = false ∧ ∃ r, trim_start l = open_marker ++ r) ∨
       (b.completed = true ∧ ∃ r, trim_start l = done_marker ++ r)) := by
  have := parse_bullets_aux_mem lines 0 0 h
  obtain ⟨-, l, hget, hrest⟩ := this
  exact ⟨l, by simpa using hget, hrest⟩

/-- The position data of a decoded entry. -/
def bpair (b : Bullet) : Nat × Nat := (b.line_index, b.visible_index)

theorem parse_bullets_aux_cons_bullet {l : Line} (hb : is_bullet_line l = true)
    (rest : List Line) (idx v : Nat) :
    (parse_bullets_aux (l :: rest) idx v).map bpair =
      (idx, v + 1) :: (parse_bullets_aux rest (idx + 1) (v + 1)).map bpair := by
  simp only [is_bullet_line, Bool.or_eq_true, Option.isSome_iff_exists] at hb
  rcases hb with ⟨r, ho⟩ | ⟨r, hd⟩
  · simp [parse_bullets_aux, ho, mk_bullet, bpair]
  · cases hoo : strip_pre open_marker (trim_start l) with
    | some r2 => simp [parse_bullets_aux, hoo, mk_bullet, bpair]
    | none => simp [parse_bullets_aux, hoo, hd, mk_bullet, bpair]

theorem parse_bullets_aux_cons_nonbullet {l : Line} (hb : is_bullet_line l = false)
    (rest : List Line) (idx v : Nat) :
    parse_bullets_aux (l :: rest) idx v = parse_bullets_aux rest (idx + 1) v := by
  simp only [is_bullet_line, Bool.or_eq_false_iff] at hb
  have h1 : strip_pre open_marker (trim_start l) = none := by
    cases h : strip_pre open_marker (trim_start l) with
    | none => rfl
    | some r => rw [h] at hb; simp at hb
  have h2 : strip_pre done_marker (trim_start l) = none := by
    cases h : strip_pre done_marker (trim_start l) with
    | none => rfl
    | some r => rw [h] at hb; simp at hb
  simp [parse_bullets_aux, h1, h2]

theorem parse_bullets_aux_set {l' : Line} :
    ∀ (ls : List Line) (i : Nat) (l : Line), ls[i]? = some l →
      is_bullet_line l = true → is_bullet_line l' = true →
      ∀ idx v, (parse_bullets_aux (ls.set i l') idx v).map bpair =
        (parse_bullets_aux ls idx v).map bpair := by
  intro ls
  induction ls with
  | nil => intro i l h; simp at h
  | cons x rest ih =>
    intro i l hget hb hb' idx v
    cases i with
    | zero =>
      simp only [List.getElem?_cons_zero, Option.some.injEq] at hget
      subst hget
      rw [List.set_cons_zero, parse_bullets_aux_cons_bullet hb,
        parse_bullets_aux_cons_bullet hb']
    | succ n =>
      simp only [List.getElem?_cons_succ] at hget
      rw [List.set_cons_succ]
      by_cases hx : is_bullet_line x
      · rw [parse_bullets_aux_cons_bullet hx, parse_bullets_aux_cons_bullet hx,
          ih n l hget hb hb' (idx + 1) (v + 1)]
      · rw [parse_bullets_aux_cons_nonbullet (Bool.of_not_eq_true hx),
          parse_bullets_aux_cons_nonbullet (Bool.of_not_eq_true hx),
          ih n l hget hb hb' (idx + 1) v]

theorem find_vis_map_pair {l1 l2 : List Bullet}
    (h : l1.map bpair = l2.map bpair) (id : Nat) :
    (l1.find? (fun b => b.visible_index == id)).map bpair =
      (l2.find? (fun b => b.visible_index == id)).map bpair := by
  induction l1 generalizing l2 with
  | nil =>
    cases l2 with
    | nil => rfl
    | cons b bs => simp at h
  | cons a as ih =>
    cases l2 with
    | nil => simp at h
    | cons b bs =>
      simp only [List.map_cons, List.cons.injEq] at h
      have hv : a.visible_index = b.visible_index := by
        have := congrArg Prod.snd h.1
        simpa [bpair] using this
      by_cases hid : a.visible_index == id
      · have hid2 : b.visible_index == id := by rw [← hv]; exact hid
        simp [List.find?_cons, hid, hid2, h.1]
      · have hid2 : ¬ (b.visible_index == id) := by rw [← hv]; exact hid
        simp only [List.find?_cons, Bool.not_eq_true] at hid hid2 ⊢
        rw [hid, hid2]
        exact ih h.2

theorem strip_pre_cons_ne {a c : Char} {ps s : List Char}
    (h : a ≠ c) : strip_pre (a :: ps) (c :: s) = none := by
  simp [strip_pre, h]

theorem replace_first_marker {wsp : List Char} (hws : ∀ c ∈ wsp, c.isWhitespace)
    (r : Line) :
    replace_first open_marker done_marker (wsp ++ open_marker ++ r) =
      wsp ++ done_marker ++ r := by
  induction wsp with
  | nil =>
    show replace_first open_marker done_marker (open_marker ++ r) = done_marker ++ r
    have : strip_pre open_marker (open_marker ++ r) = some r := strip_pre_append _ _
    cases hm : open_marker ++ r with
    | nil => simp [open_marker] at hm
    | cons c cs =>
      simp only [replace_first]
      rw [← hm, this]
  | cons c cs ih =>
    have hcw : c.isWhitespace := hws c (List.mem_cons_self c cs)
    have hcd : '-' ≠ c := by
      intro he
      rw [← he] at hcw
      exact absurd hcw (by decide)
    show replace_first open_marker done_marker (c :: (cs ++ open_marker ++ r)) =
      (c :: cs) ++ done_marker ++ r
    simp only [replace_first]
    have hnone : strip_pre open_marker (c :: (cs ++ open_marker ++ r)) = none := by
      rw [show open_marker = '-' :: [' ', '[', ' ', ']', ' '] from rfl]
      exact strip_pre_cons_ne hcd
    rw [hnone, ih (fun d hd => hws d (List.mem_cons_of_mem c hd))]
    rfl

theorem strip_open_of_done (r : Line) :
    strip_pre open_marker (done_marker ++ r) = none := by
  simp [open_marker, done_marker, strip_pre]

theorem is_bullet_line_of_done {l : Line} {r : Line}
    (h : trim_start l = done_marker ++ r) : is_bullet_line l = true := by
  simp [is_bullet_line, h, strip_pre_append]

theorem is_bullet_line_of_open {l : Line} {r : Line}
    (h : trim_start l = open_marker ++ r) : is_bullet_line l = true := by
  simp [is_bullet_line, h, strip_pre_append]

theorem mark_done_eq_of_find {lines : List Line} {id : Nat} {b : Bullet}
    (hf : (parse_bullets lines).find? (fun x => x.visible_index == id) = some b) :
    mark_done lines id = .ok (lines.set b.line_index
      (if (strip_pre open_marker (trim_start (lines.getD b.line_index []))).isSome
        then replace_first open_marker done_marker (lines.getD b.line_index [])
        else lines.getD b.line_index [])) := by
  unfold mark_done
  rw [hf]

theorem mark_done_spec (lines : List Line) (id : Nat) (b : Bullet)
    (hf : (parse_bullets lines).find? (fun x => x.visible_index == id) = some b) :
    ∃ out, mark_done lines id = .ok out ∧
      mark_done out id = .ok out ∧
      (b.completed = true → out = lines) ∧
      (b.completed = false → ∃ wsp r, (∀ c ∈ wsp, c.isWhitespace = true) ∧
        lines[b.line_index]? = some (wsp ++ (open_marker ++ r)) ∧
        out = lines.set b.line_index (wsp ++ (done_marker ++ r))) := by
  have hmem : b ∈ parse_bullets lines := List.mem_of_find?_eq_some hf
  obtain ⟨raw, hget, hcase⟩ := parse_bullets_mem hmem
  have hraw : lines.getD b.line_index [] = raw := getD_of_getElem? hget
  rcases hcase with ⟨hc, r, htrim⟩ | ⟨hc, r, htrim⟩
  · -- open entry: the marker is replaced in place
    set wsp := raw.takeWhile Char.isWhitespace with hwsp
    have hws : ∀ c ∈ wsp, c.isWhitespace = true := fun c hcmem =>
      List.mem_takeWhile_imp hcmem
    have hdecomp : raw = wsp ++ (open_marker ++ r) := by
      conv_lhs => rw [← List.takeWhile_append_dropWhile Char.isWhitespace raw]
      rw [← hwsp]
      have : raw.dropWhile Char.isWhitespace = open_marker ++ r := htrim
      rw [this]
    have hsome : (strip_pre open_marker (trim_start raw)).isSome = true := by
      rw [htrim, strip_pre_append]; rfl
    have hrepl : replace_first open_marker done_marker raw =
        wsp ++ (done_marker ++ r) := by
      rw [hdecomp, ← List.append_assoc]
      rw [replace_first_marker hws]
      rw [List.append_assoc]
    set out := lines.set b.line_index (wsp ++ (done_marker ++ r)) with hout
    have hmd : mark_done lines id = .ok out := by
      rw [mark_done_eq_of_find hf, hraw, hsome, if_pos rfl, hrepl]
    refine ⟨out, hmd, ?_, by intro h; rw [hc] at h; exact Bool.noConfusion h,
      fun _ => ⟨wsp, r, hws, by rw [← hdecomp]; exact hget, rfl⟩⟩
    -- idempotence: the rewritten line starts with the done marker
    have hlen : b.line_index < lines.length := by
      by_contra hn
      rw [List.getElem?_eq_none (by omega)] at hget
      exact Option.noConfusion hget
    have htrim2 : trim_start (wsp ++ (done_marker ++ r)) = done_marker ++ r := by
      rw [trim_start_ws_append hws]
      exact trim_start_cons_of_not_ws (by decide) _
    have hget2 : out[b.line_index]? = some (wsp ++ (done_marker ++ r)) := by
      rw [hout, List.getElem?_set]
      simp [hlen]
    have hbold : is_bullet_line raw = true := is_bullet_line_of_open htrim
    have hbnew : is_bullet_line (wsp ++ (done_marker ++ r)) = true :=
      is_bullet_line_of_done htrim2
    have hmap : (parse_bullets out).map bpair = (parse_bullets lines).map bpair :=
      parse_bullets_aux_set lines b.line_index raw hget hbold hbnew 0 0
    have hfind2 := find_vis_map_pair hmap id
    rw [hf] at hfind2
    cases hf2 : (parse_bullets out).find? (fun x => x.visible_index == id) with
    | none => rw [hf2] at hfind2; simp at hfind2
    | some b2 =>
      rw [hf2] at hfind2
      have hpair : bpair b2 = bpair b := by simpa using hfind2
      have hli : b2.line_index = b.line_index := by
        have := congrArg Prod.fst hpair
        simpa [bpair] using this
      have hraw2 : out.getD b2.line_index [] = wsp ++ (done_marker ++ r) := by
        rw [hli]; exact getD_of_getElem? hget2
      have hcond : (strip_pre open_marker
          (trim_start (out.getD b2.line_index []))).isSome = false := by
        rw [hraw2, htrim2, strip_open_of_done]; rfl
      rw [mark_done_eq_of_find hf2, hcond]
      simp only [Bool.false_eq_true, if_false]
      rw [hraw2, hli, set_getElem_self hget2]
  · -- already-done entry: no change at all
    have hnone : (strip_pre open_marker (trim_start raw)).isSome = false := by
      rw [htrim, strip_open_of_done]; rfl
    have hmd : mark_done lines id = .ok lines := by
      have hcond : (strip_pre open_marker
          (trim_start (lines.getD b.line_index []))).isSome = false := by
        rw [hraw]; exact hnone
      rw [mark_done_eq_of_find hf, hcond]
      simp only [Bool.false_eq_true, if_false]
      rw [hraw, set_getElem_self hget]
    exact ⟨lines, hmd, hmd, fun _ => rfl,
      by intro h; rw [hc] at h; exact Bool.noConfusion h⟩

/-- C9: when `visibleId` resolves to an entry, `complete` (`mark_done`)
succeeds and is idempotent — the second application returns the very same
line sequence (hence the same decoded state).  On an already-completed entry
it leaves the file unchanged; on an open entry it changes only the target
line, replacing just the open marker with the done marker (the leading
whitespace and everything after the marker are untouched). -/
theorem complete_idempotent_minimal (lines : List Line) (id : Nat) (b : Bullet)
    (hf : (parse_bullets lines).find? (fun x => x.visible_index == id) = some b) :
    ∃ out, mark_done lines id = .ok out ∧
      mark_done out id = .ok out ∧
      (b.completed = true → out = lines) ∧
      (b.completed = false → ∃ wsp r, (∀ c ∈ wsp, c.isWhitespace = true) ∧
        lines[b.line_index]? = some (wsp ++ (open_marker ++ r)) ∧
        out = lines.set b.line_index (wsp ++ (done_marker ++ r))) :=
  mark_done_spec lines id b hf

theorem complete_idempotent_minimal_witness :
    ∃ out, mark_done [open_marker ++ ['A'], done_marker ++ ['B']] 1 = .ok out ∧
      mark_done out 1 = .ok out ∧
      ((⟨0, 1, false, ['A'], none, [], [], none, none⟩ : Bullet).completed = true →
        out = [open_marker ++ ['A'], done_marker ++ ['B']]) ∧
      ((⟨0, 1, false, ['A'], none, [], [], none, none⟩ : Bullet).completed = false →
        ∃ wsp r, (∀ c ∈ wsp, c.isWhitespace = true) ∧
          [open_marker ++ ['A'], done_marker ++ ['B']][(0 : Nat)]? =
            some (wsp ++ (open_marker ++ r)) ∧
          out = [open_marker ++ ['A'], done_marker ++ ['B']].set 0
            (wsp ++ (done_marker ++ r))) :=
  complete_idempotent_minimal [open_marker ++ ['A'], done_marker ++ ['B']] 1
    ⟨0, 1, false, ['A'], none, [], [], none, none⟩ (by decide)

theorem split_close_eq {spec : List Char} (h : ']' ∉ spec) (after : List Char) :
    split_close (spec ++ ']' :: after) = some (spec, after) := by
  induction spec with
  | nil => simp [split_close]
  | cons c cs ih =>
    have hc : ¬ (c = ']') := fun he => h (he ▸ List.mem_cons_self c cs)
    have hr := ih (fun hm => h (List.mem_cons_of_mem c hm))
    simp only [List.cons_append, split_close, if_neg hc]
    rw [show split_close (cs.append (']' :: after)) = some (cs, after) from hr]

/-- C2 (amended): when the bracket opens with `[mtg ` and closes with `]`,
but the first token inside does not parse as an `HH:MM` time, decode leaves
the start time unset — yet the duration field is still parsed from the
second token and is set whenever that token parses as a `u32`. -/
theorem malformed_time_duration_set (spec after p0 : List Char)
    (ps : List (List Char)) (hnc : ']' ∉ spec)
    (hsplit : split_ws spec = p0 :: ps)
    (hbad : parse_time_hm p0 = none) :
    (parse_text_meeting_meta (mtg_marker ++ (spec ++ ']' :: after))).mt = none ∧
    (parse_text_meeting_meta (mtg_marker ++ (spec ++ ']' :: after))).dur =
      (match ps with
        | p1 :: _ => parse_u32 p1
        | [] => none) := by
  have h1 : strip_pre mtg_marker (mtg_marker ++ (spec ++ ']' :: after)) =
    some (spec ++ ']' :: after) := strip_pre_append _ _
  have h2 : split_close (spec ++ ']' :: after) = some (spec, after) :=
    split_close_eq hnc after
  simp only [parse_text_meeting_meta, h1, h2, hsplit, hbad]
  constructor
  · trivial
  · cases ps <;> rfl

theorem malformed_time_duration_set_witness :
    ']' ∉ (("bogus 45").toList) ∧
    split_ws (("bogus 45").toList) = [("bogus").toList, ("45").toList] ∧
    parse_time_hm (("bogus").toList) = none ∧
    ((parse_text_meeting_meta (mtg_marker ++ ((("bogus 45").toList) ++ ']' :: ['x']))).mt
        = none ∧
      (parse_text_meeting_meta (mtg_marker ++ ((("bogus 45").toList) ++ ']' :: ['x']))).dur
        = parse_u32 (("45").toList)) :=
  ⟨by decide, by decide, by decide,
    malformed_time_duration_set (("bogus 45").toList) ['x'] (("bogus").toList)
      [("45").toList] (by decide) (by decide) (by decide)⟩

/-- C2 counterexample: on `[mtg bogus 45] x` the claim says the meeting is
absent entirely (duration unset too); the code leaves the start time unset
but sets `meeting_duration_min = some 45`. -/
theorem malformed_time_sets_duration_cex :
    (parse_text_meeting_meta (("[mtg bogus 45] x").toList)).mt = none ∧
    (parse_text_meeting_meta (("[mtg bogus 45] x").toList)).dur = some 45 ∧
    (parse_text_meeting_meta (("[mtg bogus 45] x").toList)).dur ≠ none := by
  refine ⟨by decide, by decide, by decide⟩

/-- C1: the code fails to delete the note block.  On a file holding one
entry with one attached note (`decode` reports the note as belonging to
entry 1), `delete(1)` removes only the entry line: the `  - note: ` line
survives, because the deletion scan stops at any line whose trimmed form
starts with `- ` — which every note line does.  This contradicts both the
spec and the comment inside the function ("Remove the bullet line and any
associated note lines"). -/
theorem delete_leaves_note_block :
    (parse_bullets [("- [ ] A").toList, ("  - note: n").toList]).map
      (fun b => b.notes) = [[['n']]] ∧
    delete_bullet [("- [ ] A").toList, ("  - note: n").toList] 1 =
      .ok [("  - note: n").toList] ∧
    delete_bullet [("- [ ] A").toList, ("  - note: n").toList] 1 ≠ .ok [] := by
  refine ⟨by decide, by decide, by decide⟩

theorem trim_end_eq_nil_iff {s : List Char} :
    trim_end s = [] ↔ ∀ c ∈ s, c.isWhitespace = true := by
  unfold trim_end
  rw [List.reverse_eq_nil_iff, List.dropWhile_eq_nil_iff]
  constructor
  · intro h c hc
    exact h c (List.mem_reverse.mpr hc)
  · intro h c hc
    exact h c (List.mem_reverse.mp hc)

theorem trim_end_append_of_ne {b : List Char} (h : trim_end b ≠ [])
    (a : List Char) : trim_end (a ++ b) = a ++ trim_end b := by
  have hne2 : b.reverse.dropWhile Char.isWhitespace ≠ [] := by
    intro hnil
    apply h
    unfold trim_end
    rw [hnil]
    rfl
  unfold trim_end
  rw [List.reverse_append, List.dropWhile_append]
  cases hx : List.dropWhile Char.isWhitespace b.reverse with
  | nil => exact absurd hx hne2
  | cons y ys => simp

theorem trim_bracket_body (t : Time) (dur : Option Nat) (text : Line) :
    ∃ rest, trim (meeting_bracket_render t dur ++ text) = mtg_marker ++ rest := by
  obtain ⟨b, hshape, hmem⟩ : ∃ b, meeting_bracket_render t dur ++ text =
      mtg_marker ++ b ∧ ']' ∈ b := by
    refine ⟨fmt_hm t ++ ((match dur with
      | some d => ' ' :: Nat.toDigits 10 d
      | none => []) ++ (']' :: ' ' :: text)), ?_, ?_⟩
    · unfold meeting_bracket_render
      cases dur <;> simp [List.append_assoc]
    · refine List.mem_append.mpr (Or.inr ?_)
      refine List.mem_append.mpr (Or.inr ?_)
      exact List.mem_cons_self _ _
  have hne : trim_end b ≠ [] := fun hnil =>
    absurd (trim_end_eq_nil_iff.mp hnil ']' hmem) (by decide)
  refine ⟨trim_end b, ?_⟩
  rw [hshape]
  unfold trim
  have h1 : trim_start (mtg_marker ++ b) = mtg_marker ++ b := by
    rw [show mtg_marker ++ b = '[' :: (['m', 't', 'g', ' '] ++ b) from rfl]
    exact trim_start_cons_of_not_ws (by decide) _
  rw [h1]
  exact trim_end_append_of_ne hne mtg_marker

/-- C7 (amended): the encoded entry line is marker, then priority prefix,
then body text — with the meeting bracket re-rendered at the *start of the
body*, i.e. **after** the priority prefix — then one trailing ` #tag` per
tag; `add_bullet` then appends one `  - note: ` line per note.  So for an
entry with both a meeting and a priority, the priority prefix precedes the
meeting bracket on the encoded line. -/
theorem migrate_one_canonical_render (wf : Date → Bool) (fs : FS)
    (dfrom dto : Date) (id : Nat) (b : Bullet) (m : TMeta)
    (hne : dfrom ≠ dto)
    (hf : (parse_bullets (fs dfrom)).find? (fun x => x.visible_index == id) = some b)
    (hc : b.completed = false)
    (hto : wf dto = false)
    (hm : m = parse_text_meeting_meta
      (trim_start_matches open_marker (trim_start ((fs dfrom).getD b.line_index [])))) :
    (migrate_one wf fs dfrom dto id).2 dto =
      fs dto ++ [open_marker ++ (prio_render m.pr ++ (trim (reconstruct_body m)
        ++ tag_render m.tags))] ∧
    (∀ t, m.mt = some t → ∃ rest, trim (reconstruct_body m) = mtg_marker ++ rest) ∧
    (∀ lines text pr tags notes, add_bullet lines text pr tags notes =
      lines ++ (open_marker ++ prio_render pr ++ trim text ++ tag_render tags)
        :: notes.map note_render) := by
  refine ⟨?_, ?_, fun lines text pr tags notes => rfl⟩
  · simp only [migrate_one, if_neg hne, hf, hc, Bool.false_eq_true, if_false, ← hm,
      add_bullet_fs, save_file, hto]
    by_cases hw : wf dfrom
    · simp only [hw, if_true, fs_set, if_pos rfl]
      unfold add_bullet
      simp [List.append_assoc]
    · simp only [hw, Bool.false_eq_true, if_false, fs_set,
        if_neg (show ¬ (dto = dfrom) from fun he => hne he.symm), if_pos rfl]
      unfold add_bullet
      simp [List.append_assoc]
  · intro t ht
    have : reconstruct_body m = meeting_bracket_render t m.dur ++ m.text := by
      unfold reconstruct_body
      rw [ht]
    rw [this]
    exact trim_bracket_body t m.dur m.text

theorem migrate_one_canonical_render_witness :
    (let fs0 : FS := fun d =>
      if d = ['f'] then [("- [ ] [mtg 09:00] (!) Call").toList] else []
     let m0 : TMeta := ⟨("Call").toList, some 1, [], some ⟨9, 0⟩, none⟩
     (migrate_one (fun _ => false) fs0 ['f'] ['t'] 1).2 ['t'] =
      fs0 ['t'] ++ [open_marker ++ (prio_render m0.pr ++ (trim (reconstruct_body m0)
        ++ tag_render m0.tags))] ∧
    (∀ t, m0.mt = some t → ∃ rest, trim (reconstruct_body m0) = mtg_marker ++ rest) ∧
    (∀ lines text pr tags notes, add_bullet lines text pr tags notes =
      lines ++ (open_marker ++ prio_render pr ++ trim text ++ tag_render tags)
        :: notes.map note_render)) :=
  migrate_one_canonical_render (fun _ => false)
    (fun d => if d = ['f'] then [("- [ ] [mtg 09:00] (!) Call").toList] else [])
    ['f'] ['t'] 1 ⟨0, 1, false, ("Call").toList, some 1, [], [], some ⟨9, 0⟩, none⟩
    ⟨("Call").toList, some 1, [], some ⟨9, 0⟩, none⟩
    (by decide) (by decide) rfl rfl (by decide)

/-- C7 counterexample: migrating the decoded entry of
`- [ ] [mtg 09:00] (!) Call` (which has both a meeting and a priority)
renders `- [ ] (!) [mtg 09:00] Call` in the destination file: the priority
prefix comes *before* the meeting bracket, not after it as claimed. -/
theorem encode_priority_before_bracket_cex :
    (migrate_one (fun _ => false)
      (fun d => if d = ['f'] then [("- [ ] [mtg 09:00] (!) Call").toList] else [])
      ['f'] ['t'] 1).2 ['t'] = [("- [ ] (!) [mtg 09:00] Call").toList] ∧
    ("- [ ] (!) [mtg 09:00] Call").toList ≠ ("- [ ] [mtg 09:00] (!) Call").toList := by
  refine ⟨by decide, by decide⟩

theorem notify_go_mem (w : Int) (today : Date) (now : Int) (sent : List Line)
    (bs : List Bullet) (k : Line) :
    k ∈ notify_go w today now sent bs ↔
      ∃ b ∈ bs, ∃ t, b.meeting_time = some t ∧ k = notify_key today t ∧
        k ∉ sent ∧ 0 ≤ num_minutes (time_secs t - now) ∧
        num_minutes (time_secs t - now) ≤ w := by
  induction bs with
  | nil => simp [notify_go]
  | cons b rest ih =>
    cases hmt : b.meeting_time with
    | none =>
      simp only [notify_go, hmt]
      rw [ih]
      constructor
      · rintro ⟨b', hb', rest'⟩
        exact ⟨b', List.mem_cons_of_mem b hb', rest'⟩
      · rintro ⟨b', hb', t, ht, hrest⟩
        rcases List.mem_cons.mp hb' with he | hm
        · rw [he, hmt] at ht
          exact Option.noConfusion ht
        · exact ⟨b', hm, t, ht, hrest⟩
    | some t0 =>
      simp only [notify_go, hmt]
      by_cases hs : notify_key today t0 ∈ sent
      · rw [if_pos hs, ih]
        constructor
        · rintro ⟨b', hb', rest'⟩
          exact ⟨b', List.mem_cons_of_mem b hb', rest'⟩
        · rintro ⟨b', hb', t, ht, hk, hns, hcond⟩
          rcases List.mem_cons.mp hb' with he | hm
          · rw [he, hmt] at ht
            injection ht with ht
            rw [ht] at hs
            rw [hk] at hns
            exact absurd hs hns
          · exact ⟨b', hm, t, ht, hk, hns, hcond⟩
      · rw [if_neg hs]
        by_cases hcond : 0 ≤ num_minutes (time_secs t0 - now) ∧
            num_minutes (time_secs t0 - now) ≤ w
        · rw [if_pos hcond]
          constructor
          · intro hk
            rcases List.mem_cons.mp hk with he | hm
            · exact ⟨b, List.mem_cons_self b rest, t0, hmt, he, he ▸ hs,
                hcond.1, hcond.2⟩
            · obtain ⟨b', hb', rest'⟩ := (ih).mp hm
              exact ⟨b', List.mem_cons_of_mem b hb', rest'⟩
          · rintro ⟨b', hb', t, ht, hk, hns, hc1, hc2⟩
            rcases List.mem_cons.mp hb' with he | hm
            · rw [he, hmt] at ht
              injection ht with ht
              rw [← ht] at hk
              exact List.mem_cons.mpr (Or.inl hk)
            · exact List.mem_cons.mpr (Or.inr ((ih).mpr ⟨b', hm, t, ht, hk, hns, hc1, hc2⟩))
        · rw [if_neg hcond, ih]
          constructor
          · rintro ⟨b', hb', rest'⟩
            exact ⟨b', List.mem_cons_of_mem b hb', rest'⟩
          · rintro ⟨b', hb', t, ht, hk, hns, hc1, hc2⟩
            rcases List.mem_cons.mp hb' with he | hm
            · rw [he, hmt] at ht
              injection ht with ht
              rw [← ht] at hc1 hc2
              exact absurd ⟨hc1, hc2⟩ hcond
            · exact ⟨b', hm, t, ht, hk, hns, hc1, hc2⟩

/-- C10: within one `notify_upcoming_meetings` invocation a key is delivered
iff its meeting lies in the window (`0 ≤ minutes-until-start ≤ window`,
whole minutes truncated toward zero) and the key is not in the dedup set
loaded at the start; the persisted state afterwards contains exactly the old
set plus the fired keys; hence across two successive invocations over the
same day file — whatever the second clock and window are — no key fired by
the first invocation is ever delivered again by the second. -/
theorem notify_dedup_across_invocations (w w2 : Int) (today : Date)
    (now now2 : Int) (lines : List Line) (sent : List Line) :
    (∀ k, k ∈ (notify_upcoming_meetings w today now lines sent).1 ↔
      ∃ b ∈ parse_bullets lines, ∃ t, b.meeting_time = some t ∧
        k = notify_key today t ∧ k ∉ sent ∧
        0 ≤ num_minutes (time_secs t - now) ∧ num_minutes (time_secs t - now) ≤ w) ∧
    (∀ k, k ∈ (notify_upcoming_meetings w today now lines sent).2 ↔
      k ∈ sent ∨ k ∈ (notify_upcoming_meetings w today now lines sent).1) ∧
    (∀ k, k ∈ (notify_upcoming_meetings w today now lines sent).1 →
      k ∉ (notify_upcoming_meetings w2 today now2 lines
        (notify_upcoming_meetings w today now lines sent).2).1) := by
  refine ⟨fun k => notify_go_mem w today now sent (parse_bullets lines) k, ?_, ?_⟩
  · intro k
    show k ∈ (if notify_go w today now sent (parse_bullets lines) = [] then sent
        else sent ++ notify_go w today now sent (parse_bullets lines)) ↔ _
    by_cases hnil : notify_go w today now sent (parse_bullets lines) = []
    · rw [if_pos hnil]
      show k ∈ sent ↔ k ∈ sent ∨
        k ∈ notify_go w today now sent (parse_bullets lines)
      rw [hnil]
      simp
    · rw [if_neg hnil]
      show k ∈ sent ++ notify_go w today now sent (parse_bullets lines) ↔ k ∈ sent ∨
        k ∈ notify_go w today now sent (parse_bullets lines)
      exact List.mem_append
  · intro k hk1 hk2
    have hchar2 := (notify_go_mem w2 today now2
      (notify_upcoming_meetings w today now lines sent).2 (parse_bullets lines) k).mp hk2
    obtain ⟨b', hb', t, ht, hkey, hns, -⟩ := hchar2
    apply hns
    show k ∈ (if notify_go w today now sent (parse_bullets lines) = [] then sent
        else sent ++ notify_go w today now sent (parse_bullets lines))
    have hk1' : k ∈ notify_go w today now sent (parse_bullets lines) := hk1
    have hknil : notify_go w today now sent (parse_bullets lines) ≠ [] := by
      intro hnil
      rw [hnil] at hk1'
      exact List.not_mem_nil k hk1'
    rw [if_neg hknil]
    exact List.mem_append.mpr (Or.inr hk1')

theorem split_ws_go_cons_ws {c : Char} (hc : c.isWhitespace = true)
    (rest acc : List Char) :
    split_ws_go (c :: rest) acc =
      if acc = [] then split_ws_go rest []
      else acc.reverse :: split_ws_go rest [] := by
  simp [split_ws_go, hc]

theorem split_ws_go_cons_nonws {c : Char} (hc : c.isWhitespace = false)
    (rest acc : List Char) :
    split_ws_go (c :: rest) acc = split_ws_go rest (c :: acc) := by
  simp [split_ws_go, hc]

theorem split_ws_go_nonws : ∀ (t acc : List Char),
    t.all (fun c => !c.isWhitespace) →
    split_ws_go t acc = if acc.reverse ++ t = [] then [] else [acc.reverse ++ t] := by
  intro t
  induction t with
  | nil =>
    intro acc _
    show (if acc = [] then [] else [acc.reverse]) = _
    by_cases ha : acc = []
    · rw [if_pos ha, ha]
      simp
    · rw [if_neg ha, if_neg (by simp [ha]), List.append_nil]
  | cons c t' ih =>
    intro acc hall
    simp only [List.all_cons, Bool.and_eq_true, Bool.not_eq_true'] at hall
    rw [split_ws_go_cons_nonws hall.1]
    rw [ih (c :: acc) (by simp [hall.2])]
    rw [List.reverse_cons, List.append_assoc]
    simp

theorem split_ws_go_append_ws {c : Char} (hc : c.isWhitespace = true) :
    ∀ (a b acc : List Char),
      split_ws_go (a ++ c :: b) acc = split_ws_go a acc ++ split_ws_go b [] := by
  intro a
  induction a with
  | nil =>
    intro b acc
    rw [show ([] : List Char) ++ c :: b = c :: b from rfl]
    rw [split_ws_go_cons_ws hc]
    by_cases ha : acc = []
    · rw [if_pos ha, ha]
      rfl
    · rw [if_neg ha]
      show _ = (if acc = [] then [] else [acc.reverse]) ++ _
      rw [if_neg ha]
      rfl
  | cons x a' ih =>
    intro b acc
    rw [show (x :: a') ++ c :: b = x :: (a' ++ c :: b) from rfl]
    by_cases hx : x.isWhitespace
    · rw [split_ws_go_cons_ws hx, split_ws_go_cons_ws hx]
      by_cases ha : acc = []
      · rw [if_pos ha, if_pos ha, ih]
      · rw [if_neg ha, if_neg ha, ih, List.cons_append]
    · have hx' : x.isWhitespace = false := by simpa using hx
      rw [split_ws_go_cons_nonws hx', split_ws_go_cons_nonws hx', ih]

theorem split_ws_join_sp {toks : List (List Char)}
    (h : ∀ t ∈ toks, t ≠ [] ∧ t.all (fun c => !c.isWhitespace)) :
    split_ws (join_sp toks) = toks := by
  induction toks with
  | nil => rfl
  | cons t ts ih =>
    obtain ⟨hne, hnw⟩ := h t (List.mem_cons_self t ts)
    cases ts with
    | nil =>
      show split_ws_go t [] = [t]
      rw [split_ws_go_nonws t [] hnw]
      simp [hne]
    | cons t2 ts' =>
      show split_ws_go (t ++ ' ' :: join_sp (t2 :: ts')) [] = t :: t2 :: ts'
      rw [split_ws_go_append_ws (by decide) t (join_sp (t2 :: ts')) []]
      rw [split_ws_go_nonws t [] hnw]
      rw [if_neg (by simp [hne])]
      have := ih (fun x hx => h x (List.mem_cons_of_mem t hx))
      rw [show split_ws_go (join_sp (t2 :: ts')) [] = split_ws (join_sp (t2 :: ts'))
        from rfl, this]
      simp

theorem split_ws_go_tag_render {tags : List (List Char)}
    (h : ∀ t ∈ tags, t ≠ [] ∧ t.all (fun c => !c.isWhitespace)) :
    split_ws_go (tag_render tags) [] = tags.map (fun t => '#' :: t) := by
  induction tags with
  | nil => rfl
  | cons t ts ih =>
    obtain ⟨hne, hnw⟩ := h t (List.mem_cons_self t ts)
    have hall : ('#' :: t).all (fun c => !c.isWhitespace) := by simp [hnw]
    show split_ws_go (' ' :: ('#' :: t ++ tag_render ts)) [] = _
    rw [split_ws_go_cons_ws (by decide), if_pos rfl]
    cases ts with
    | nil =>
      show split_ws_go ('#' :: t ++ []) [] = ['#' :: t]
      rw [List.append_nil, split_ws_go_nonws _ [] hall]
      simp
    | cons t2 ts' =>
      have hstep : '#' :: t ++ tag_render (t2 :: ts') =
          ('#' :: t) ++ ' ' :: ('#' :: t2 ++ tag_render ts') := rfl
      rw [hstep, split_ws_go_append_ws (by decide) ('#' :: t) _ []]
      rw [split_ws_go_nonws _ [] hall, if_neg (by simp)]
      have hrec : split_ws_go ('#' :: t2 ++ tag_render ts') [] =
          split_ws_go (tag_render (t2 :: ts')) [] := rfl
      rw [hrec, ih (fun x hx => h x (List.mem_cons_of_mem t hx))]
      simp

theorem split_ws_text_tags {toks tags : List (List Char)}
    (htok : ∀ t ∈ toks, t ≠ [] ∧ t.all (fun c => !c.isWhitespace))
    (htag : ∀ t ∈ tags, t ≠ [] ∧ t.all (fun c => !c.isWhitespace)) :
    split_ws (join_sp toks ++ tag_render tags) =
      toks ++ tags.map (fun t => '#' :: t) := by
  cases tags with
  | nil =>
    show split_ws (join_sp toks ++ []) = toks ++ []
    rw [List.append_nil, List.append_nil]
    exact split_ws_join_sp htok
  | cons t ts =>
    show split_ws_go (join_sp toks ++ ' ' :: ('#' :: t ++ tag_render ts)) [] = _
    rw [split_ws_go_append_ws (by decide) (join_sp toks) _ []]
    rw [show split_ws_go (join_sp toks) [] = split_ws (join_sp toks) from rfl,
      split_ws_join_sp htok]
    have hrec : split_ws_go ('#' :: t ++ tag_render ts) [] =
        split_ws_go (tag_render (t :: ts)) [] := rfl
    rw [hrec, split_ws_go_tag_render htag]

theorem tag_split_eq (ps : List (List Char)) :
    (tag_split ps).1 = ps.filter (fun p => !(strip_pre ['#'] p).isSome) ∧
    (tag_split ps).2 = ps.filterMap (fun p =>
      (strip_pre ['#'] p).bind (fun t => if t = [] then none else some t)) := by
  induction ps with
  | nil => exact ⟨rfl, rfl⟩
  | cons p ps ih =>
    cases hs : strip_pre ['#'] p with
    | none =>
      have hred : tag_split (p :: ps) = (p :: (tag_split ps).1, (tag_split ps).2) := by
        simp [tag_split, hs]
      rw [hred, List.filter_cons, List.filterMap_cons]
      constructor
      · simp [hs, ih.1]
      · simp [hs, ih.2]
    | some t =>
      by_cases ht : t = []
      · have hred : tag_split (p :: ps) = ((tag_split ps).1, (tag_split ps).2) := by
          simp [tag_split, hs, ht]
        rw [hred, List.filter_cons, List.filterMap_cons]
        constructor
        · simp [hs, ht, ih.1]
        · simp [hs, ht, ih.2]
      · have hred : tag_split (p :: ps) = ((tag_split ps).1, t :: (tag_split ps).2) := by
          simp [tag_split, hs, ht]
        rw [hred, List.filter_cons, List.filterMap_cons]
        constructor
        · simp [hs, ih.1]
        · simp [hs, ht, ih.2]

theorem strip_hash_none {t : List Char} (hne : t ≠ []) (hh : t.head? ≠ some '#') :
    strip_pre ['#'] t = none := by
  cases t with
  | nil => exact absurd rfl hne
  | cons c cs =>
    have hc : '#' ≠ c := by
      intro he
      exact hh (by rw [List.head?_cons, ← he])
    exact strip_pre_cons_ne hc

theorem strip_hash_some (t : List Char) : strip_pre ['#'] ('#' :: t) = some t := by
  simp [strip_pre]

theorem join_sp_eq_append (t : List Char) (ts : List (List Char)) :
    ∃ z, join_sp (t :: ts) = t ++ z := by
  cases ts with
  | nil => exact ⟨[], by simp [join_sp]⟩
  | cons t2 ts' => exact ⟨' ' :: join_sp (t2 :: ts'), rfl⟩

theorem join_sp_last : ∀ (toks : List (List Char)),
    (∀ t ∈ toks, t ≠ [] ∧ t.all (fun c => !c.isWhitespace)) → toks ≠ [] →
    ∃ a c, join_sp toks = a ++ [c] ∧ c.isWhitespace = false := by
  intro toks
  induction toks with
  | nil => intro _ h; exact absurd rfl h
  | cons t ts ih =>
    intro h _
    obtain ⟨hne, hnw⟩ := h t (List.mem_cons_self t ts)
    cases ts with
    | nil =>
      refine ⟨t.dropLast, t.getLast hne, ?_, ?_⟩
      · show t = _
        exact (List.dropLast_append_getLast hne).symm
      · have hmem := List.getLast_mem hne
        have := List.all_eq_true.mp hnw _ hmem
        simpa using this
    | cons t2 ts' =>
      obtain ⟨a, c, hj, hc⟩ := ih (fun x hx => h x (List.mem_cons_of_mem t hx))
        (by simp)
      refine ⟨t ++ ' ' :: a, c, ?_, hc⟩
      show t ++ ' ' :: join_sp (t2 :: ts') = _
      rw [hj]
      simp

theorem trim_end_append_nonws {c : Char} (hc : c.isWhitespace = false)
    (a : List Char) : trim_end (a ++ [c]) = a ++ [c] := by
  unfold trim_end
  rw [List.reverse_append]
  show ((List.dropWhile Char.isWhitespace (c :: a.reverse))).reverse = _
  rw [List.dropWhile_cons, hc]
  simp

theorem trim_join_sp {toks : List (List Char)}
    (h : ∀ t ∈ toks, t ≠ [] ∧ t.all (fun c => !c.isWhitespace)) :
    trim (join_sp toks) = join_sp toks := by
  cases toks with
  | nil => rfl
  | cons t ts =>
    obtain ⟨hne, hnw⟩ := h t (List.mem_cons_self t ts)
    have hts : trim_start (join_sp (t :: ts)) = join_sp (t :: ts) := by
      obtain ⟨z, hz⟩ := join_sp_eq_append t ts
      cases t with
      | nil => exact absurd rfl hne
      | cons c cs =>
        rw [hz]
        have hcnw : c.isWhitespace = false := by
          have := List.all_eq_true.mp hnw c (List.mem_cons_self c cs)
          simpa using this
        exact trim_start_cons_of_not_ws hcnw _
    obtain ⟨a, c, hj, hc⟩ := join_sp_last (t :: ts) h (by simp)
    unfold trim
    rw [hts, hj, trim_end_append_nonws hc]

theorem collect_notes_map (notes : List Line) :
    collect_notes (notes.map note_render) = notes := by
  induction notes with
  | nil => rfl
  | cons n ns ih =>
    show collect_notes (note_render n :: ns.map note_render) = n :: ns
    have : strip_pre note_marker (note_render n) = some n := strip_pre_append _ _
    simp [collect_notes, this, ih]

theorem parse_bullets_aux_nil_of_no_bullets {ls : List Line}
    (h : ls.countP is_bullet_line = 0) (idx v : Nat) :
    parse_bullets_aux ls idx v = [] := by
  have := parse_bullets_aux_length ls idx v
  rw [h] at this
  exact List.length_eq_zero.mp this

theorem parse_bullets_aux_cons_open {l r : Line}
    (h : strip_pre open_marker (trim_start l) = some r) (rest : List Line)
    (idx v : Nat) :
    parse_bullets_aux (l :: rest) idx v =
      mk_bullet idx (v + 1) false (parse_text_meeting_meta r) (collect_notes rest) ::
        parse_bullets_aux rest (idx + 1) (v + 1) := by
  simp [parse_bullets_aux, h]

theorem ptm_no_bracket {r : Line} (h : strip_pre mtg_marker r = none) :
    parse_text_meeting_meta r =
      ⟨(parse_text_meta_only r).1, (parse_text_meta_only r).2.1,
        (parse_text_meta_only r).2.2, none, none⟩ := by
  simp [parse_text_meeting_meta, h]

theorem strip_prio_render3 (r : Line) :
    strip_prio (prio3_marker ++ r) = (some 3, r) := by
  unfold strip_prio
  rw [strip_pre_append]

theorem strip_prio_render2 (r : Line) :
    strip_prio (prio2_marker ++ r) = (some 2, r) := by
  unfold strip_prio
  have h3 : strip_pre prio3_marker (prio2_marker ++ r) = none := by
    simp [prio3_marker, prio2_marker, strip_pre]
  rw [h3, strip_pre_append]

theorem strip_prio_render1 (r : Line) :
    strip_prio (prio1_marker ++ r) = (some 1, r) := by
  unfold strip_prio
  have h3 : strip_pre prio3_marker (prio1_marker ++ r) = none := by
    simp [prio3_marker, prio1_marker, strip_pre]
  have h2 : strip_pre prio2_marker (prio1_marker ++ r) = none := by
    simp [prio2_marker, prio1_marker, strip_pre]
  rw [h3, h2, strip_pre_append]

theorem filterMap_hash_tags : ∀ {tags : List (List Char)}, (∀ t ∈ tags, t ≠ []) →
    (tags.map (fun t => '#' :: t)).filterMap (fun p =>
      (strip_pre ['#'] p).bind (fun t => if t = [] then none else some t)) = tags := by
  intro tags
  induction tags with
  | nil => intro _; rfl
  | cons t ts ih =>
    intro htag
    have hne := htag t (List.mem_cons_self t ts)
    rw [List.map_cons, List.filterMap_cons, strip_hash_some]
    simp only [Option.some_bind, if_neg hne]
    rw [ih (fun x hx => htag x (List.mem_cons_of_mem t hx))]

theorem ptmo_canonical (toks tags : List (List Char)) (pr : Option Nat)
    (htok : ∀ t ∈ toks, t ≠ [] ∧ t.all (fun c => !c.isWhitespace) ∧ t.head? ≠ some '#')
    (htag : ∀ t ∈ tags, t ≠ [] ∧ t.all (fun c => !c.isWhitespace))
    (hpr : pr = none ∨ pr = some 1 ∨ pr = some 2 ∨ pr = some 3)
    (hnp : pr = none → strip_prio (join_sp toks ++ tag_render tags) =
      (none, join_sp toks ++ tag_render tags)) :
    parse_text_meta_only (prio_render pr ++ (join_sp toks ++ tag_render tags)) =
      (join_sp toks, pr, tags) := by
  have htok' : ∀ t ∈ toks, t ≠ [] ∧ t.all (fun c => !c.isWhitespace) :=
    fun t ht => ⟨(htok t ht).1, (htok t ht).2.1⟩
  have hsplit := split_ws_text_tags htok' htag
  have hkept : (tag_split (toks ++ tags.map (fun t => '#' :: t))).1 = toks := by
    rw [(tag_split_eq _).1, List.filter_append]
    have h1 : toks.filter (fun p => !(strip_pre ['#'] p).isSome) = toks := by
      apply List.filter_eq_self.mpr
      intro p hp
      rw [strip_hash_none (htok p hp).1 (htok p hp).2.2]
      rfl
    have h2 : (tags.map (fun t => '#' :: t)).filter
        (fun p => !(strip_pre ['#'] p).isSome) = [] := by
      apply List.filter_eq_nil.mpr
      intro p hp
      obtain ⟨t, -, hpt⟩ := List.mem_map.mp hp
      rw [← hpt, strip_hash_some]
      simp
    rw [h1, h2, List.append_nil]
  have htags2 : (tag_split (toks ++ tags.map (fun t => '#' :: t))).2 = tags := by
    rw [(tag_split_eq _).2, List.filterMap_append]
    have h1 : toks.filterMap (fun p =>
        (strip_pre ['#'] p).bind (fun t => if t = [] then none else some t)) = [] := by
      apply List.filterMap_eq_nil.mpr
      intro p hp
      rw [strip_hash_none (htok p hp).1 (htok p hp).2.2]
      rfl
    have h2 := filterMap_hash_tags (fun t ht => (htag t ht).1)
    rw [h1, h2, List.nil_append]
  have hprio : strip_prio (prio_render pr ++ (join_sp toks ++ tag_render tags)) =
      (pr, join_sp toks ++ tag_render tags) := by
    rcases hpr with h | h | h | h
    · rw [h]
      show strip_prio ([] ++ (join_sp toks ++ tag_render tags)) = _
      rw [List.nil_append]
      exact hnp h
    · rw [h]
      exact strip_prio_render1 _
    · rw [h]
      exact strip_prio_render2 _
    · rw [h]
      exact strip_prio_render3 _
  have hred : parse_text_meta_only (prio_render pr ++ (join_sp toks ++ tag_render tags)) =
      (join_sp (tag_split (split_ws (join_sp toks ++ tag_render tags))).1, pr,
        (tag_split (split_ws (join_sp toks ++ tag_render tags))).2) := by
    unfold parse_text_meta_only
    rw [hprio]
  rw [hred, hsplit, hkept, htags2]

theorem decode_encode_canonical (toks tags : List (List Char)) (pr : Option Nat)
    (notes : List Line)
    (htok : ∀ t ∈ toks, t ≠ [] ∧ t.all (fun c => !c.isWhitespace) ∧ t.head? ≠ some '#')
    (htag : ∀ t ∈ tags, t ≠ [] ∧ t.all (fun c => !c.isWhitespace))
    (hpr : pr = none ∨ pr = some 1 ∨ pr = some 2 ∨ pr = some 3)
    (hnm : pr = none → strip_pre mtg_marker (join_sp toks ++ tag_render tags) = none)
    (hnp : pr = none → strip_prio (join_sp toks ++ tag_render tags) =
      (none, join_sp toks ++ tag_render tags)) :
    parse_bullets (add_bullet [] (join_sp toks) pr tags notes) =
      [⟨0, 1, false, join_sp toks, pr, tags, notes, none, none⟩] := by
  have htok' : ∀ t ∈ toks, t ≠ [] ∧ t.all (fun c => !c.isWhitespace) :=
    fun t ht => ⟨(htok t ht).1, (htok t ht).2.1⟩
  have htrim : trim (join_sp toks) = join_sp toks := trim_join_sp htok'
  have hline : add_bullet [] (join_sp toks) pr tags notes =
      (open_marker ++ (prio_render pr ++ (join_sp toks ++ tag_render tags))) ::
        notes.map note_render := by
    unfold add_bullet
    rw [htrim]
    simp [List.append_assoc]
  rw [hline]
  have hstrip : strip_pre open_marker (trim_start
      (open_marker ++ (prio_render pr ++ (join_sp toks ++ tag_render tags)))) =
      some (prio_render pr ++ (join_sp toks ++ tag_render tags)) := by
    rw [trim_start_open_append, strip_pre_append]
  show parse_bullets_aux _ 0 0 = _
  rw [parse_bullets_aux_cons_open hstrip]
  have htail : parse_bullets_aux (notes.map note_render) (0 + 1) (0 + 1) = [] := by
    apply parse_bullets_aux_nil_of_no_bullets
    apply List.countP_eq_zero.mpr
    intro l hl
    obtain ⟨n, -, hn⟩ := List.mem_map.mp hl
    rw [← hn, is_bullet_line_note]
    exact Bool.false_ne_true
  rw [htail, collect_notes_map]
  have hmtg : strip_pre mtg_marker
      (prio_render pr ++ (join_sp toks ++ tag_render tags)) = none := by
    rcases hpr with h | h | h | h
    · rw [h]
      show strip_pre mtg_marker ([] ++ (join_sp toks ++ tag_render tags)) = none
      rw [List.nil_append]
      exact hnm h
    · rw [h]
      show strip_pre mtg_marker
        ('(' :: (['!', ')', ' '] ++ (join_sp toks ++ tag_render tags))) = none
      rw [show mtg_marker = '[' :: ['m', 't', 'g', ' '] from rfl]
      exact strip_pre_cons_ne (by decide)
    · rw [h]
      show strip_pre mtg_marker
        ('(' :: (['!', '!', ')', ' '] ++ (join_sp toks ++ tag_render tags))) = none
      rw [show mtg_marker = '[' :: ['m', 't', 'g', ' '] from rfl]
      exact strip_pre_cons_ne (by decide)
    · rw [h]
      show strip_pre mtg_marker
        ('(' :: (['!', '!', '!', ')', ' '] ++ (join_sp toks ++ tag_render tags))) = none
      rw [show mtg_marker = '[' :: ['m', 't', 'g', ' '] from rfl]
      exact strip_pre_cons_ne (by decide)
  rw [ptm_no_bracket hmtg, ptmo_canonical toks tags pr htok htag hpr hnp]
  rfl

/-- C8 (amended): decode removes from the body *every* whitespace-separated
token beginning with `#`: those longer than one character are appended (in
encounter order) to `tags`, while a bare `#` token is silently dropped
(removed from the text without becoming a tag); the remaining tokens are
rejoined with single spaces.  The `Ship #work the release` example behaves
exactly as stated (canonicalized re-encode, identical re-decode).  Decoding
the re-encoded line reproduces the identical structured entry provided the
entry has no meeting, its priority is a legal value, and — when it has no
priority — its canonical body does not itself begin with a priority marker
or a meeting opener (without that proviso idempotence fails, see the
counterexample). -/
theorem tag_canonicalization_spec (toks tags : List (List Char)) (pr : Option Nat)
    (notes : List Line)
    (htok : ∀ t ∈ toks, t ≠ [] ∧ t.all (fun c => !c.isWhitespace) ∧ t.head? ≠ some '#')
    (htag : ∀ t ∈ tags, t ≠ [] ∧ t.all (fun c => !c.isWhitespace))
    (hpr : pr = none ∨ pr = some 1 ∨ pr = some 2 ∨ pr = some 3)
    (hnm : pr = none → strip_pre mtg_marker (join_sp toks ++ tag_render tags) = none)
    (hnp : pr = none → strip_prio (join_sp toks ++ tag_render tags) =
      (none, join_sp toks ++ tag_render tags)) :
    (∀ r : Line, (parse_text_meta_only r).1 =
        join_sp ((split_ws (strip_prio r).2).filter
          (fun p => !(strip_pre ['#'] p).isSome)) ∧
      (parse_text_meta_only r).2.2 = (split_ws (strip_prio r).2).filterMap
        (fun p => (strip_pre ['#'] p).bind
          (fun t => if t = [] then none else some t))) ∧
    (parse_bullets [("- [ ] Ship #work the release").toList] =
      [⟨0, 1, false, ("Ship the release").toList, none, [("work").toList],
        [], none, none⟩] ∧
     add_bullet [] (("Ship the release").toList) none [("work").toList] [] =
      [("- [ ] Ship the release #work").toList] ∧
     parse_bullets [("- [ ] Ship the release #work").toList] =
      [⟨0, 1, false, ("Ship the release").toList, none, [("work").toList],
        [], none, none⟩]) ∧
    parse_bullets (add_bullet [] (join_sp toks) pr tags notes) =
      [⟨0, 1, false, join_sp toks, pr, tags, notes, none, none⟩] := by
  refine ⟨?_, ⟨by decide, by decide, by decide⟩,
    decode_encode_canonical toks tags pr notes htok htag hpr hnm hnp⟩
  intro r
  constructor
  · show join_sp (tag_split (split_ws (strip_prio r).2)).1 = _
    rw [(tag_split_eq _).1]
  · show (tag_split (split_ws (strip_prio r).2)).2 = _
    rw [(tag_split_eq _).2]

theorem tag_canonicalization_spec_witness :
    ((∀ r : Line, (parse_text_meta_only r).1 =
        join_sp ((split_ws (strip_prio r).2).filter
          (fun p => !(strip_pre ['#'] p).isSome)) ∧
      (parse_text_meta_only r).2.2 = (split_ws (strip_prio r).2).filterMap
        (fun p => (strip_pre ['#'] p).bind
          (fun t => if t = [] then none else some t))) ∧
    (parse_bullets [("- [ ] Ship #work the release").toList] =
      [⟨0, 1, false, ("Ship the release").toList, none, [("work").toList],
        [], none, none⟩] ∧
     add_bullet [] (("Ship the release").toList) none [("work").toList] [] =
      [("- [ ] Ship the release #work").toList] ∧
     parse_bullets [("- [ ] Ship the release #work").toList] =
      [⟨0, 1, false, ("Ship the release").toList, none, [("work").toList],
        [], none, none⟩]) ∧
    parse_bullets (add_bullet [] (join_sp [['a']]) (some 2) [['t']] [['n']]) =
      [⟨0, 1, false, join_sp [['a']], some 2, [['t']], [['n']], none, none⟩]) :=
  tag_canonicalization_spec [['a']] [['t']] (some 2) [['n']]
    (by decide) (by decide) (by decide) (by decide) (by decide)

/-- C8 counterexample: (i) a bare `#` token is removed from the text too —
`a # b` decodes to text `a b`, not `a # b` as the clause "exactly the
tokens ... longer than one character" requires; (ii) canonicalization is
not idempotent in general: `- [ ] #t (!) y` decodes to text `(!) y` with no
priority, but its re-encoded line decodes to text `y` with priority 1. -/
theorem tag_canonicalization_cex :
    (parse_text_meta_only (("a # b").toList)).1 = ("a b").toList ∧
    (parse_text_meta_only (("a # b").toList)).1 ≠ ("a # b").toList ∧
    (parse_bullets [("- [ ] #t (!) y").toList]).map
      (fun b => (b.text, b.priority, b.tags)) =
      [((("(!) y").toList), none, [['t']])] ∧
    add_bullet [] (("(!) y").toList) none [['t']] [] =
      [("- [ ] (!) y #t").toList] ∧
    (parse_bullets [("- [ ] (!) y #t").toList]).map
      (fun b => (b.text, b.priority, b.tags)) = [((['y']), some 1, [['t']])] ∧
    ((['y'] : Line), (some 1 : Option Nat)) ≠ ((("(!) y").toList), none) := by
  refine ⟨by decide, by decide, by decide, by decide, by decide, by decide⟩

/-- A line matching neither the entry grammar nor the note grammar. -/
def is_opaque_line (l : Line) : Bool :=
  !(is_bullet_line l) && !(strip_pre note_marker l).isSome

theorem is_opaque_of_bullet {l : Line} (h : is_bullet_line l = true) :
    is_opaque_line l = false := by
  simp [is_opaque_line, h]

theorem is_opaque_open_append (r : Line) : is_opaque_line (open_marker ++ r) = false :=
  is_opaque_of_bullet (is_bullet_line_open r)

theorem is_opaque_note (n : Line) : is_opaque_line (note_render n) = false := by
  have : strip_pre note_marker (note_render n) = some n := strip_pre_append _ _
  simp [is_opaque_line, this]

theorem filter_opaque_add (ls : List Line) (text : Line) (pr : Option Nat)
    (tags notes : List Line) :
    (add_bullet ls text pr tags notes).filter is_opaque_line = ls.filter is_opaque_line := by
  unfold add_bullet
  rw [List.filter_append, List.filter_cons]
  have h1 : is_opaque_line (open_marker ++ prio_render pr ++ trim text ++ tag_render tags)
      = false := by
    have := is_opaque_open_append (prio_render pr ++ trim text ++ tag_render tags)
    simpa [List.append_assoc] using this
  rw [h1]
  have h2 : (notes.map note_render).filter is_opaque_line = [] := by
    apply List.filter_eq_nil.mpr
    intro l hl
    obtain ⟨n, -, hn⟩ := List.mem_map.mp hl
    rw [← hn, is_opaque_note]
    exact Bool.false_ne_true
  simp [h2]

theorem getElem?_some_lt {l : List Line} {i : Nat} {a : Line}
    (h : l[i]? = some a) : i < l.length := by
  by_contra hn
  rw [List.getElem?_eq_none (by omega)] at h
  exact Option.noConfusion h

theorem filter_set_not {lines : List Line} {i : Nat} {old new : Line}
    (hget : lines[i]? = some old) (hold : is_opaque_line old = false)
    (hnew : is_opaque_line new = false) :
    (lines.set i new).filter is_opaque_line = lines.filter is_opaque_line := by
  have hi : i < lines.length := getElem?_some_lt hget
  rw [List.set_eq_take_append_cons_drop, if_pos hi]
  conv_rhs => rw [← List.take_append_drop i lines, List.drop_eq_getElem_cons hi]
  have hgi : lines[i] = old := by
    have := List.getElem?_eq_getElem hi
    rw [this] at hget
    exact Option.some.inj hget
  rw [hgi, List.filter_append, List.filter_append, List.filter_cons,
    List.filter_cons, hold, hnew]
  simp

theorem filter_eraseIdx_not {lines : List Line} {i : Nat} {old : Line}
    (hget : lines[i]? = some old) (hold : is_opaque_line old = false) :
    (lines.eraseIdx i).filter is_opaque_line = lines.filter is_opaque_line := by
  have hi : i < lines.length := getElem?_some_lt hget
  rw [List.eraseIdx_eq_take_drop_succ]
  conv_rhs => rw [← List.take_append_drop i lines, List.drop_eq_getElem_cons hi]
  have hgi : lines[i] = old := by
    have := List.getElem?_eq_getElem hi
    rw [this] at hget
    exact Option.some.inj hget
  rw [hgi, List.filter_append, List.filter_append, List.filter_cons, hold]
  simp

theorem bullet_line_not_opaque {lines : List Line} {b : Bullet}
    (h : b ∈ parse_bullets lines) :
    ∃ l, lines[b.line_index]? = some l ∧ is_opaque_line l = false := by
  obtain ⟨l, hget, hcase⟩ := parse_bullets_mem h
  refine ⟨l, hget, ?_⟩
  rcases hcase with ⟨-, r, htrim⟩ | ⟨-, r, htrim⟩
  · exact is_opaque_of_bullet (is_bullet_line_of_open htrim)
  · exact is_opaque_of_bullet (is_bullet_line_of_done htrim)

theorem parse_bullets_aux_lb {b : Bullet} {ls : List Line} {idx v : Nat}
    (h : b ∈ parse_bullets_aux ls idx v) : idx ≤ b.line_index :=
  (parse_bullets_aux_mem ls idx v h).1

theorem parse_bullets_aux_pairwise (ls : List Line) (idx v : Nat) :
    List.Pairwise (fun x y => x.line_index < y.line_index)
      (parse_bullets_aux ls idx v) := by
  induction ls generalizing idx v with
  | nil => simp [parse_bullets_aux]
  | cons l rest ih =>
    cases ho : strip_pre open_marker (trim_start l) with
    | some r =>
      rw [parse_bullets_aux_cons_open ho]
      refine List.pairwise_cons.mpr ⟨?_, ih (idx + 1) (v + 1)⟩
      intro b' hb'
      have := parse_bullets_aux_lb hb'
      show idx < b'.line_index
      omega
    | none =>
      cases hd : strip_pre done_marker (trim_start l) with
      | some r =>
        have heq : parse_bullets_aux (l :: rest) idx v =
            mk_bullet idx (v + 1) true (parse_text_meeting_meta r)
              (collect_notes rest) :: parse_bullets_aux rest (idx + 1) (v + 1) := by
          simp [parse_bullets_aux, ho, hd]
        rw [heq]
        refine List.pairwise_cons.mpr ⟨?_, ih (idx + 1) (v + 1)⟩
        intro b' hb'
        have := parse_bullets_aux_lb hb'
        show idx < b'.line_index
        omega
      | none =>
        have hb : is_bullet_line l = false := by simp [is_bullet_line, ho, hd]
        rw [parse_bullets_aux_cons_nonbullet hb]
        exact ih (idx + 1) v

/-- The survivors of the note scan in `delete_bullet` over the suffix after the
deleted entry line: blank lines survive, two-space-indented lines whose
trimmed form does not start with `- ` are dropped, and the scan stops at
the first other line (everything from it on survives). -/
def scan_keep : List Line → List Line
  | [] => []
  | l :: rest =>
    if trim l = [] then l :: scan_keep rest
    else if (strip_pre ([' ', ' ']) l).isSome &&
        !(strip_pre (['-', ' ']) (trim_start l)).isSome then
      scan_keep rest
    else l :: rest

theorem foldr_erase_scan : ∀ (suf P : List Line),
    (delete_scan suf P.length).foldr (fun i ls => ls.eraseIdx i) (P ++ suf) =
      P ++ scan_keep suf := by
  intro suf
  induction suf with
  | nil =>
    intro P
    show ([] : List Nat).foldr _ (P ++ []) = P ++ []
    rfl
  | cons l rest ih =>
    intro P
    by_cases hb : trim l = []
    · have hscan : delete_scan (l :: rest) P.length =
          delete_scan rest (P.length + 1) := by
        simp [delete_scan, hb]
      have hkeep : scan_keep (l :: rest) = l :: scan_keep rest := by
        simp [scan_keep, hb]
      rw [hscan, hkeep]
      have hP : P.length + 1 = (P ++ [l]).length := by simp
      have hassoc : P ++ l :: rest = (P ++ [l]) ++ rest := by simp
      rw [hassoc, hP, ih (P ++ [l])]
      simp
    · by_cases hcont : ((strip_pre ([' ', ' ']) l).isSome &&
          !(strip_pre (['-', ' ']) (trim_start l)).isSome) = true
      · have hscan : delete_scan (l :: rest) P.length =
            P.length :: delete_scan rest (P.length + 1) := by
          simp only [delete_scan, if_neg hb, if_pos hcont]
        have hkeep : scan_keep (l :: rest) = scan_keep rest := by
          simp only [scan_keep, if_neg hb, if_pos hcont]
        rw [hscan, hkeep, List.foldr_cons]
        have hP : P.length + 1 = (P ++ [l]).length := by simp
        have hassoc : P ++ l :: rest = (P ++ [l]) ++ rest := by simp
        rw [hassoc, hP, ih (P ++ [l])]
        have : (P ++ [l]) ++ scan_keep rest = P ++ (l :: scan_keep rest) := by simp
        rw [this, List.eraseIdx_append_of_length_le (Nat.le_refl P.length)]
        simp
      · have hscan : delete_scan (l :: rest) P.length = [] := by
          simp only [delete_scan, if_neg hb, if_neg hcont]
        have hkeep : scan_keep (l :: rest) = l :: rest := by
          simp only [scan_keep, if_neg hb, if_neg hcont]
        rw [hscan, hkeep]
        rfl

theorem delete_bullet_eq_of_find {lines : List Line} {id : Nat} {b : Bullet}
    (hf : (parse_bullets lines).find? (fun x => x.visible_index == id) = some b) :
    delete_bullet lines id = .ok ((b.line_index ::
      delete_scan (lines.drop (b.line_index + 1)) (b.line_index + 1)).foldr
        (fun i ls => ls.eraseIdx i) lines) := by
  unfold delete_bullet
  rw [hf]

theorem delete_bullet_spec {lines : List Line} {id : Nat} {b : Bullet}
    (hf : (parse_bullets lines).find? (fun x => x.visible_index == id) = some b) :
    delete_bullet lines id = .ok (lines.take b.line_index ++
      scan_keep (lines.drop (b.line_index + 1))) := by
  obtain ⟨raw, hget, -⟩ :=
    parse_bullets_mem (List.mem_of_find?_eq_some hf)
  have hi : b.line_index < lines.length := getElem?_some_lt hget
  rw [delete_bullet_eq_of_find hf, List.foldr_cons]
  have hlen : (lines.take (b.line_index + 1)).length = b.line_index + 1 := by
    rw [List.length_take]
    omega
  have hsplit : lines = lines.take (b.line_index + 1) ++
      lines.drop (b.line_index + 1) := (List.take_append_drop _ _).symm
  have hstep := foldr_erase_scan (lines.drop (b.line_index + 1))
    (lines.take (b.line_index + 1))
  rw [hlen, ← hsplit] at hstep
  rw [hstep]
  have htake : lines.take (b.line_index + 1) = lines.take b.line_index ++ [raw] := by
    rw [List.take_succ, hget]
    rfl
  rw [htake]
  have hlen2 : (lines.take b.line_index).length = b.line_index := by
    rw [List.length_take]
    omega
  rw [List.append_assoc, List.eraseIdx_append_of_length_le (Nat.le_of_eq hlen2),
    hlen2, Nat.sub_self]
  rfl

theorem scan_keep_decomp : ∀ suf : List Line, ∃ pre keep, suf = pre ++ keep ∧
    scan_keep suf = pre.filter (fun l => decide (trim l = [])) ++ keep ∧
    ∀ l ∈ pre, trim l = [] ∨
      ((strip_pre ([' ', ' ']) l).isSome = true ∧
        (strip_pre (['-', ' ']) (trim_start l)).isSome = false) := by
  intro suf
  induction suf with
  | nil => exact ⟨[], [], rfl, rfl, fun l hl => absurd hl (List.not_mem_nil l)⟩
  | cons l rest ih =>
    by_cases hb : trim l = []
    · obtain ⟨pre, keep, hsuf, hsk, hprop⟩ := ih
      refine ⟨l :: pre, keep, by rw [List.cons_append, ← hsuf], ?_, ?_⟩
      · have hkeep : scan_keep (l :: rest) = l :: scan_keep rest := by
          simp [scan_keep, hb]
        rw [hkeep, hsk, List.filter_cons, if_pos (by simp [hb])]
        rfl
      · intro x hx
        rcases List.mem_cons.mp hx with he | hm
        · exact Or.inl (he ▸ hb)
        · exact hprop x hm
    · by_cases hcont : ((strip_pre ([' ', ' ']) l).isSome &&
          !(strip_pre (['-', ' ']) (trim_start l)).isSome) = true
      · obtain ⟨pre, keep, hsuf, hsk, hprop⟩ := ih
        refine ⟨l :: pre, keep, by rw [List.cons_append, ← hsuf], ?_, ?_⟩
        · have hkeep : scan_keep (l :: rest) = scan_keep rest := by
            simp only [scan_keep, if_neg hb, if_pos hcont]
          rw [hkeep, hsk, List.filter_cons, if_neg (by simp [hb])]
        · intro x hx
          rcases List.mem_cons.mp hx with he | hm
          · subst he
            simp only [Bool.and_eq_true, Bool.not_eq_true'] at hcont
            exact Or.inr ⟨hcont.1, hcont.2⟩
          · exact hprop x hm
      · refine ⟨[], l :: rest, rfl, ?_, fun x hx => absurd hx (List.not_mem_nil x)⟩
        have hkeep : scan_keep (l :: rest) = l :: rest := by
          simp only [scan_keep, if_neg hb, if_neg hcont]
        rw [hkeep]
        rfl

theorem mark_done_filter {lines out : List Line} {id : Nat}
    (hmd : mark_done lines id = .ok out) :
    out.filter is_opaque_line = lines.filter is_opaque_line := by
  cases hf : (parse_bullets lines).find? (fun x => x.visible_index == id) with
  | none =>
    unfold mark_done at hmd
    rw [hf] at hmd
    exact Except.noConfusion hmd
  | some b =>
    rw [mark_done_eq_of_find hf] at hmd
    have hout := (Except.ok.inj hmd).symm
    obtain ⟨raw, hget, hcase⟩ := parse_bullets_mem (List.mem_of_find?_eq_some hf)
    have hraw : lines.getD b.line_index [] = raw := getD_of_getElem? hget
    rw [hraw] at hout
    have hbold : is_bullet_line raw = true := by
      rcases hcase with ⟨-, r, htrim⟩ | ⟨-, r, htrim⟩
      · exact is_bullet_line_of_open htrim
      · exact is_bullet_line_of_done htrim
    by_cases hos : (strip_pre open_marker (trim_start raw)).isSome
    · rw [if_pos hos] at hout
      obtain ⟨r, hr⟩ := Option.isSome_iff_exists.mp hos
      have htrim : trim_start raw = open_marker ++ r := strip_pre_iff.mp hr
      set wsp := raw.takeWhile Char.isWhitespace with hwsp
      have hws : ∀ c ∈ wsp, c.isWhitespace = true := fun c hc =>
        List.mem_takeWhile_imp hc
      have hdecomp : raw = wsp ++ (open_marker ++ r) := by
        conv_lhs => rw [← List.takeWhile_append_dropWhile Char.isWhitespace raw]
        rw [← hwsp]
        have : raw.dropWhile Char.isWhitespace = open_marker ++ r := htrim
        rw [this]
      have hrepl : replace_first open_marker done_marker raw =
          wsp ++ (done_marker ++ r) := by
        rw [hdecomp, ← List.append_assoc, replace_first_marker hws, List.append_assoc]
      rw [hrepl] at hout
      have hnew : is_opaque_line (wsp ++ (done_marker ++ r)) = false := by
        apply is_opaque_of_bullet
        apply is_bullet_line_of_done (r := r)
        rw [trim_start_ws_append hws]
        exact trim_start_cons_of_not_ws (by decide) _
      rw [hout]
      exact filter_set_not hget (is_opaque_of_bullet hbold) hnew
    · rw [if_neg hos] at hout
      rw [hout, set_getElem_self hget]

theorem migrate_one_success_shape (fs : FS) (dfrom dto : Date) (id : Nat)
    (b : Bullet) (hne : dfrom ≠ dto)
    (hf : (parse_bullets (fs dfrom)).find? (fun x => x.visible_index == id) = some b)
    (hc : b.completed = false) :
    ∃ T P G, migrate_one (fun _ => false) fs dfrom dto id =
      (none, fs_set (fs_set fs dto (add_bullet (fs dto) T P G [])) dfrom
        ((fs dfrom).eraseIdx b.line_index)) := by
  refine ⟨reconstruct_body (parse_text_meeting_meta (trim_start_matches open_marker
      (trim_start ((fs dfrom).getD b.line_index [])))),
    (parse_text_meeting_meta (trim_start_matches open_marker
      (trim_start ((fs dfrom).getD b.line_index [])))).pr,
    (parse_text_meeting_meta (trim_start_matches open_marker
      (trim_start ((fs dfrom).getD b.line_index [])))).tags, ?_⟩
  simp only [migrate_one, if_neg hne, hf, hc, Bool.false_eq_true, if_false,
    add_bullet_fs, save_file]

theorem migrate_one_filter (fs : FS) (dfrom dto : Date) (id : Nat) (d : Date) :
    ((migrate_one (fun _ => false) fs dfrom dto id).2 d).filter is_opaque_line =
      (fs d).filter is_opaque_line := by
  by_cases he : dfrom = dto
  · simp [migrate_one, he]
  · cases hf : (parse_bullets (fs dfrom)).find? (fun x => x.visible_index == id) with
    | none => simp [migrate_one, he, hf]
    | some b =>
      by_cases hc : b.completed
      · simp [migrate_one, he, hf, hc]
      · obtain ⟨T, P, G, hred⟩ := migrate_one_success_shape fs dfrom dto id b he hf
          (Bool.of_not_eq_true hc)
        rw [hred]
        obtain ⟨l, hget, hop⟩ :=
          bullet_line_not_opaque (List.mem_of_find?_eq_some hf)
        show (fs_set (fs_set fs dto (add_bullet (fs dto) T P G [])) dfrom
          ((fs dfrom).eraseIdx b.line_index) d).filter is_opaque_line = _
        unfold fs_set
        by_cases hd : d = dfrom
        · rw [if_pos hd, hd]
          exact filter_eraseIdx_not hget hop
        · rw [if_neg hd]
          by_cases hd2 : d = dto
          · rw [if_pos hd2, hd2]
            exact filter_opaque_add _ _ _ _ _
          · rw [if_neg hd2]

theorem migrate_open_go_filter : ∀ (bs : List Bullet) (cur : List Line) (fs : FS)
    (dto : Date),
    (∀ b ∈ bs, ∃ l, cur[b.line_index]? = some l ∧ is_opaque_line l = false) →
    List.Pairwise (fun x y => y.line_index < x.line_index) bs →
    (migrate_open_go (fun _ => false) dto bs cur fs).1 = none ∧
    (migrate_open_go (fun _ => false) dto bs cur fs).2.1.filter is_opaque_line =
      cur.filter is_opaque_line ∧
    ∀ d, ((migrate_open_go (fun _ => false) dto bs cur fs).2.2 d).filter is_opaque_line =
      (fs d).filter is_opaque_line := by
  intro bs
  induction bs with
  | nil =>
    intro cur fs dto _ _
    exact ⟨rfl, rfl, fun d => rfl⟩
  | cons b rest ih =>
    intro cur fs dto hline hpw
    by_cases hc : b.completed
    · have hred : migrate_open_go (fun _ => false) dto (b :: rest) cur fs =
          migrate_open_go (fun _ => false) dto rest cur fs := by
        simp [migrate_open_go, hc]
      rw [hred]
      exact ih cur fs dto (fun b' hb' => hline b' (List.mem_cons_of_mem _ hb'))
        (List.pairwise_cons.mp hpw).2
    · have hc' : b.completed = false := Bool.of_not_eq_true hc
      obtain ⟨T, P, G, hred⟩ : ∃ T P G,
          migrate_open_go (fun _ => false) dto (b :: rest) cur fs =
          migrate_open_go (fun _ => false) dto rest (cur.eraseIdx b.line_index)
            (fs_set fs dto (add_bullet (fs dto) T P G [])) := by
        refine ⟨reconstruct_body (parse_text_meeting_meta (trim_start_matches
            open_marker (trim_start (cur.getD b.line_index [])))),
          (parse_text_meeting_meta (trim_start_matches open_marker
            (trim_start (cur.getD b.line_index [])))).pr,
          (parse_text_meeting_meta (trim_start_matches open_marker
            (trim_start (cur.getD b.line_index [])))).tags, ?_⟩
        simp only [migrate_open_go, hc', Bool.false_eq_true, if_false,
          add_bullet_fs, save_file]
      rw [hred]
      obtain ⟨l, hget, hop⟩ := hline b (List.mem_cons_self b rest)
      have hpw' := List.pairwise_cons.mp hpw
      have hline' : ∀ b' ∈ rest, ∃ l', (cur.eraseIdx b.line_index)[b'.line_index]? =
          some l' ∧ is_opaque_line l' = false := by
        intro b' hb'
        obtain ⟨l', hget', hop'⟩ := hline b' (List.mem_cons_of_mem _ hb')
        refine ⟨l', ?_, hop'⟩
        rw [List.getElem?_eraseIdx, if_pos (hpw'.1 b' hb')]
        exact hget'
      obtain ⟨h1, h2, h3⟩ := ih (cur.eraseIdx b.line_index)
        (fs_set fs dto (add_bullet (fs dto) T P G [])) dto hline' hpw'.2
      refine ⟨h1, ?_, ?_⟩
      · rw [h2]
        exact filter_eraseIdx_not hget hop
      · intro d
        rw [h3 d]
        show (fs_set fs dto (add_bullet (fs dto) T P G []) d).filter is_opaque_line = _
        unfold fs_set
        by_cases hd : d = dto
        · rw [if_pos hd, hd]
          exact filter_opaque_add _ _ _ _ _
        · rw [if_neg hd]

theorem migrate_open_filter (fs : FS) (dfrom dto : Date) (d : Date) :
    ((migrate_open (fun _ => false) fs dfrom dto).2 d).filter is_opaque_line =
      (fs d).filter is_opaque_line := by
  by_cases he : dfrom = dto
  · simp [migrate_open, he]
  · have hbs : ∀ b ∈ (parse_bullets (fs dfrom)).reverse,
        ∃ l, (fs dfrom)[b.line_index]? = some l ∧ is_opaque_line l = false :=
      fun b hb => bullet_line_not_opaque (List.mem_reverse.mp hb)
    have hpw : List.Pairwise (fun x y => y.line_index < x.line_index)
        (parse_bullets (fs dfrom)).reverse :=
      List.pairwise_reverse.mpr (parse_bullets_aux_pairwise _ 0 0)
    obtain ⟨h1, h2, h3⟩ := migrate_open_go_filter
      (parse_bullets (fs dfrom)).reverse (fs dfrom) fs dto hbs hpw
    have hred : migrate_open (fun _ => false) fs dfrom dto =
        save_file (fun _ => false)
          (migrate_open_go (fun _ => false) dto (parse_bullets (fs dfrom)).reverse
            (fs dfrom) fs).2.2 dfrom
          (migrate_open_go (fun _ => false) dto (parse_bullets (fs dfrom)).reverse
            (fs dfrom) fs).2.1 := by
      simp only [migrate_open, if_neg he, h1]
    rw [hred]
    show (fs_set (migrate_open_go (fun _ => false) dto
        (parse_bullets (fs dfrom)).reverse (fs dfrom) fs).2.2 dfrom
      (migrate_open_go (fun _ => false) dto (parse_bullets (fs dfrom)).reverse
        (fs dfrom) fs).2.1 d).filter is_opaque_line = _
    unfold fs_set
    by_cases hd : d = dfrom
    · rw [if_pos hd, hd]
      exact h2
    · rw [if_neg hd]
      exact h3 d

/-- Positional filter on a line sequence: keep the line sitting at absolute
index `j` exactly when the predicate holds at `j` (`n` is the index of the
first line of the argument).  Characterises which source lines survive the
descending erase loop of `migrate_open`. -/
def keep_idxs_go : List Line → (Nat → Bool) → Nat → List Line
  | [], _, _ => []
  | l :: rest, p, n =>
    if p n then l :: keep_idxs_go rest p (n + 1) else keep_idxs_go rest p (n + 1)

theorem keep_idxs_go_all_true : ∀ (ls : List Line) (p : Nat → Bool) (n : Nat),
    (∀ m, n ≤ m → p m = true) → keep_idxs_go ls p n = ls := by
  intro ls
  induction ls with
  | nil => intro p n _; rfl
  | cons l rest ih =>
    intro p n h
    simp [keep_idxs_go, h n (Nat.le_refl n),
      ih p (n + 1) (fun m hm => h m (Nat.le_of_succ_le hm))]

theorem keep_idxs_go_eraseIdx : ∀ (ls : List Line) (i n : Nat) (p : Nat → Bool),
    (∀ m, n + i ≤ m → p m = true) →
    keep_idxs_go (ls.eraseIdx i) p n =
      keep_idxs_go ls (fun j => if j = n + i then false else p j) n := by
  intro ls
  induction ls with
  | nil => intro i n p _; rfl
  | cons l rest ih =>
    intro i n p h
    cases i with
    | zero =>
      show keep_idxs_go rest p n = _
      have hhead : (if n = n + 0 then false else p n) = false := if_pos (by omega)
      simp only [keep_idxs_go, hhead, Bool.false_eq_true, if_false]
      rw [keep_idxs_go_all_true rest p n (fun m hm => h m (by omega)),
        keep_idxs_go_all_true rest _ (n + 1) (fun m hm => by
          show (if m = n + 0 then false else p m) = true
          rw [if_neg (by omega)]
          exact h m (by omega))]
    | succ i2 =>
      show keep_idxs_go (l :: rest.eraseIdx i2) p n = _
      have hhead : (if n = n + (i2 + 1) then false else p n) = p n :=
        if_neg (by omega)
      simp only [keep_idxs_go, hhead]
      rw [ih i2 (n + 1) p (fun m hm => h m (by omega)),
        show n + (i2 + 1) = (n + 1) + i2 from by omega]

/-- Folding descending index erasures over a line sequence keeps exactly the
lines whose absolute index is outside the folded index list. -/
theorem foldl_erase_desc : ∀ (D : List Nat),
    List.Pairwise (fun a b => b < a) D → ∀ ls : List Line,
    D.foldl (fun l i => l.eraseIdx i) ls =
      keep_idxs_go ls (fun n => !decide (n ∈ D)) 0 := by
  intro D
  induction D with
  | nil =>
    intro _ ls
    rw [keep_idxs_go_all_true ls _ 0 (fun m _ => by simp)]
    rfl
  | cons i D2 ih =>
    intro hpw ls
    have hlt := (List.pairwise_cons.mp hpw).1
    rw [List.foldl_cons, ih (List.pairwise_cons.mp hpw).2 (ls.eraseIdx i)]
    rw [keep_idxs_go_eraseIdx ls i 0 _ (fun m hm => by
      have hnm : m ∉ D2 := fun hmem => by
        have := hlt m hmem
        omega
      simp [hnm])]
    have hfun : (fun j => if j = 0 + i then false else !decide (j ∈ D2)) =
        (fun n => !decide (n ∈ i :: D2)) := by
      funext j
      by_cases hj : j = i
      · rw [if_pos (by omega)]
        simp [hj]
      · rw [if_neg (by omega)]
        simp [List.mem_cons, hj]
    rw [hfun]

theorem foldl_erase_bullets : ∀ (L : List Bullet) (ls : List Line),
    L.foldl (fun a x => a.eraseIdx x.line_index) ls =
      (L.map (fun x => x.line_index)).foldl (fun a i => a.eraseIdx i) ls := by
  intro L
  induction L with
  | nil => intro ls; rfl
  | cons b rest ih =>
    intro ls
    rw [List.map_cons, List.foldl_cons, List.foldl_cons, ih]

theorem migrate_open_go_cons_open (dto : Date) (b : Bullet) (rest : List Bullet)
    (cur : List Line) (fs : FS) (hc : b.completed = false) :
    ∃ T P G, migrate_open_go (fun _ => false) dto (b :: rest) cur fs =
      migrate_open_go (fun _ => false) dto rest (cur.eraseIdx b.line_index)
        (fs_set fs dto (add_bullet (fs dto) T P G [])) := by
  refine ⟨reconstruct_body (parse_text_meeting_meta (trim_start_matches
      open_marker (trim_start (cur.getD b.line_index [])))),
    (parse_text_meeting_meta (trim_start_matches open_marker
      (trim_start (cur.getD b.line_index [])))).pr,
    (parse_text_meeting_meta (trim_start_matches open_marker
      (trim_start (cur.getD b.line_index [])))).tags, ?_⟩
  simp only [migrate_open_go, hc, Bool.false_eq_true, if_false,
    add_bullet_fs, save_file]

theorem migrate_open_go_none : ∀ (bs : List Bullet) (cur : List Line) (fs : FS)
    (dto : Date), (migrate_open_go (fun _ => false) dto bs cur fs).1 = none := by
  intro bs
  induction bs with
  | nil => intro cur fs dto; rfl
  | cons b rest ih =>
    intro cur fs dto
    by_cases hc : b.completed
    · rw [show migrate_open_go (fun _ => false) dto (b :: rest) cur fs =
          migrate_open_go (fun _ => false) dto rest cur fs from by
        simp [migrate_open_go, hc]]
      exact ih cur fs dto
    · obtain ⟨T, P, G, hred⟩ := migrate_open_go_cons_open dto b rest cur fs
        (Bool.of_not_eq_true hc)
      rw [hred]
      exact ih _ _ dto

/-- The in-memory source sequence after the migrate loop is the fold of the
snapshot erasures over the open bullets, in loop order. -/
theorem migrate_open_go_cur_fold : ∀ (bs : List Bullet) (cur : List Line) (fs : FS)
    (dto : Date),
    (migrate_open_go (fun _ => false) dto bs cur fs).2.1 =
      (bs.filter (fun x => !x.completed)).foldl
        (fun a x => a.eraseIdx x.line_index) cur := by
  intro bs
  induction bs with
  | nil => intro cur fs dto; rfl
  | cons b rest ih =>
    intro cur fs dto
    by_cases hc : b.completed
    · rw [show migrate_open_go (fun _ => false) dto (b :: rest) cur fs =
          migrate_open_go (fun _ => false) dto rest cur fs from by
        simp [migrate_open_go, hc],
        show (b :: rest).filter (fun x => !x.completed) =
          rest.filter (fun x => !x.completed) from by
        simp [List.filter_cons, hc]]
      exact ih cur fs dto
    · obtain ⟨T, P, G, hred⟩ := migrate_open_go_cons_open dto b rest cur fs
        (Bool.of_not_eq_true hc)
      rw [hred, ih _ _ dto,
        show (b :: rest).filter (fun x => !x.completed) =
          b :: rest.filter (fun x => !x.completed) from by
        simp [List.filter_cons, Bool.of_not_eq_true hc],
        List.foldl_cons]

/-- The migrate loop only ever appends to destination files and touches no
other date. -/
theorem migrate_open_go_appends : ∀ (bs : List Bullet) (cur : List Line) (fs : FS)
    (dto : Date), ∃ adds : List Line, ∀ d,
      (migrate_open_go (fun _ => false) dto bs cur fs).2.2 d =
        if d = dto then fs dto ++ adds else fs d := by
  intro bs
  induction bs with
  | nil =>
    intro cur fs dto
    refine ⟨[], fun d => ?_⟩
    by_cases hd : d = dto
    · rw [if_pos hd, hd, List.append_nil]
      rfl
    · rw [if_neg hd]
      rfl
  | cons b rest ih =>
    intro cur fs dto
    by_cases hc : b.completed
    · obtain ⟨adds, ha⟩ := ih cur fs dto
      refine ⟨adds, fun d => ?_⟩
      rw [show migrate_open_go (fun _ => false) dto (b :: rest) cur fs =
          migrate_open_go (fun _ => false) dto rest cur fs from by
        simp [migrate_open_go, hc]]
      exact ha d
    · obtain ⟨T, P, G, hred⟩ := migrate_open_go_cons_open dto b rest cur fs
        (Bool.of_not_eq_true hc)
      obtain ⟨adds, ha⟩ := ih (cur.eraseIdx b.line_index)
        (fs_set fs dto (add_bullet (fs dto) T P G [])) dto
      refine ⟨(open_marker ++ prio_render P ++ trim T ++ tag_render G) :: adds,
        fun d => ?_⟩
      rw [hred, ha d]
      by_cases hd : d = dto
      · rw [if_pos hd, if_pos hd]
        show fs_set fs dto (add_bullet (fs dto) T P G []) dto ++ adds = _
        unfold fs_set
        rw [if_pos rfl]
        show add_bullet (fs dto) T P G [] ++ adds = _
        unfold add_bullet
        simp
      · rw [if_neg hd, if_neg hd]
        show fs_set fs dto (add_bullet (fs dto) T P G []) d = fs d
        unfold fs_set
        rw [if_neg hd]

/-- Completing an entry changes at most the single target line: the file
length is unchanged and every other position holds its old line. -/
theorem mark_done_pointwise {lines out : List Line} {id : Nat} {b : Bullet}
    (hf : (parse_bullets lines).find? (fun x => x.visible_index == id) = some b)
    (hmd : mark_done lines id = .ok out) :
    out.length = lines.length ∧
    ∀ j, j ≠ b.line_index → out[j]? = lines[j]? := by
  rw [mark_done_eq_of_find hf] at hmd
  have hout := (Except.ok.inj hmd).symm
  rw [hout]
  exact ⟨List.length_set lines b.line_index _,
    fun j hj => List.getElem?_set_ne (fun h => hj h.symm)⟩

/-- Successful `migrate_one` erases exactly the target entry line from the
source file, appends exactly one line to the destination file, and leaves
every other date untouched. -/
theorem migrate_one_pointwise (fs : FS) (dfrom dto : Date) (id : Nat) (b : Bullet)
    (hne : dfrom ≠ dto)
    (hf : (parse_bullets (fs dfrom)).find? (fun x => x.visible_index == id) = some b)
    (hc : b.completed = false) :
    ∃ newline, (migrate_one (fun _ => false) fs dfrom dto id).1 = none ∧
      (migrate_one (fun _ => false) fs dfrom dto id).2 dfrom =
        (fs dfrom).eraseIdx b.line_index ∧
      (migrate_one (fun _ => false) fs dfrom dto id).2 dto = fs dto ++ [newline] ∧
      ∀ d, d ≠ dfrom → d ≠ dto →
        (migrate_one (fun _ => false) fs dfrom dto id).2 d = fs d := by
  obtain ⟨T, P, G, hred⟩ := migrate_one_success_shape fs dfrom dto id b hne hf hc
  refine ⟨open_marker ++ prio_render P ++ trim T ++ tag_render G, ?_, ?_, ?_, ?_⟩
  · rw [hred]
  · rw [hred]
    show fs_set (fs_set fs dto (add_bullet (fs dto) T P G [])) dfrom
      ((fs dfrom).eraseIdx b.line_index) dfrom = _
    unfold fs_set
    rw [if_pos rfl]
  · rw [hred]
    show fs_set (fs_set fs dto (add_bullet (fs dto) T P G [])) dfrom
      ((fs dfrom).eraseIdx b.line_index) dto = _
    unfold fs_set
    rw [if_neg (fun h : dto = dfrom => hne h.symm), if_pos rfl]
    show add_bullet (fs dto) T P G [] = _
    unfold add_bullet
    simp
  · intro d h1 h2
    rw [hred]
    show fs_set (fs_set fs dto (add_bullet (fs dto) T P G [])) dfrom
      ((fs dfrom).eraseIdx b.line_index) d = fs d
    unfold fs_set
    rw [if_neg h1, if_neg h2]

/-- Successful `migrate_open` keeps exactly the source lines whose index is
not the line index of an open snapshot bullet (in their original order),
only appends to the destination file, and leaves every other date
untouched. -/
theorem migrate_open_pointwise (fs : FS) (dfrom dto : Date) (hne : dfrom ≠ dto) :
    ∃ adds : List Line,
      (migrate_open (fun _ => false) fs dfrom dto).1 = none ∧
      (migrate_open (fun _ => false) fs dfrom dto).2 dfrom =
        keep_idxs_go (fs dfrom)
          (fun n => !decide (n ∈ ((parse_bullets (fs dfrom)).filter
            (fun x => !x.completed)).map (fun x => x.line_index))) 0 ∧
      (migrate_open (fun _ => false) fs dfrom dto).2 dto = fs dto ++ adds ∧
      ∀ d, d ≠ dfrom → d ≠ dto →
        (migrate_open (fun _ => false) fs dfrom dto).2 d = fs d := by
  have hnone := migrate_open_go_none (parse_bullets (fs dfrom)).reverse (fs dfrom) fs dto
  have hred : migrate_open (fun _ => false) fs dfrom dto =
      save_file (fun _ => false)
        (migrate_open_go (fun _ => false) dto (parse_bullets (fs dfrom)).reverse
          (fs dfrom) fs).2.2 dfrom
        (migrate_open_go (fun _ => false) dto (parse_bullets (fs dfrom)).reverse
          (fs dfrom) fs).2.1 := by
    simp only [migrate_open, if_neg hne, hnone]
  obtain ⟨adds, ha⟩ := migrate_open_go_appends (parse_bullets (fs dfrom)).reverse
    (fs dfrom) fs dto
  have hpw : List.Pairwise (fun a b : Nat => b < a)
      ((((parse_bullets (fs dfrom)).filter (fun x => !x.completed)).map
        (fun x => x.line_index)).reverse) :=
    List.pairwise_reverse.mpr (List.pairwise_map.mpr
      (List.Pairwise.sublist (List.filter_sublist _)
        (parse_bullets_aux_pairwise (fs dfrom) 0 0)))
  have hcur : (migrate_open_go (fun _ => false) dto (parse_bullets (fs dfrom)).reverse
      (fs dfrom) fs).2.1 = keep_idxs_go (fs dfrom)
        (fun n => !decide (n ∈ ((parse_bullets (fs dfrom)).filter
          (fun x => !x.completed)).map (fun x => x.line_index))) 0 := by
    rw [migrate_open_go_cur_fold, List.filter_reverse, foldl_erase_bullets,
      List.map_reverse, foldl_erase_desc _ hpw (fs dfrom)]
    have hfun : (fun n => !decide (n ∈ ((((parse_bullets (fs dfrom)).filter
          (fun x => !x.completed)).map (fun x => x.line_index)).reverse))) =
        (fun n => !decide (n ∈ ((parse_bullets (fs dfrom)).filter
          (fun x => !x.completed)).map (fun x => x.line_index))) := by
      funext n
      simp [List.mem_reverse]
    rw [hfun]
  refine ⟨adds, ?_, ?_, ?_, ?_⟩
  · rw [hred]
    rfl
  · rw [hred]
    show fs_set (migrate_open_go (fun _ => false) dto
        (parse_bullets (fs dfrom)).reverse (fs dfrom) fs).2.2 dfrom
      (migrate_open_go (fun _ => false) dto (parse_bullets (fs dfrom)).reverse
        (fs dfrom) fs).2.1 dfrom = _
    unfold fs_set
    rw [if_pos rfl, hcur]
  · rw [hred]
    show fs_set (migrate_open_go (fun _ => false) dto
        (parse_bullets (fs dfrom)).reverse (fs dfrom) fs).2.2 dfrom
      (migrate_open_go (fun _ => false) dto (parse_bullets (fs dfrom)).reverse
        (fs dfrom) fs).2.1 dto = _
    unfold fs_set
    rw [if_neg (fun h : dto = dfrom => hne h.symm), ha dto, if_pos rfl]
  · intro d h1 h2
    rw [hred]
    show fs_set (migrate_open_go (fun _ => false) dto
        (parse_bullets (fs dfrom)).reverse (fs dfrom) fs).2.2 dfrom
      (migrate_open_go (fun _ => false) dto (parse_bullets (fs dfrom)).reverse
        (fs dfrom) fs).2.1 d = fs d
    unfold fs_set
    rw [if_neg h1, ha d, if_neg h2]

/-- C3 (amended): for `add`, `complete`, `migrate_one` and `migrate_open` only
the target entry lines move or change, so every opaque line (and every
other non-target line) survives byte-for-byte at its relative position:
`add` appends the new entry line and its note lines leaving every existing
line in place; `complete` rewrites at most the single target entry line in
place; a successful `migrate_one` erases exactly the target entry line from
the source, appends exactly one line to the destination and touches no
other date; a successful `migrate_open` keeps exactly the source lines that
are not open snapshot entry lines (in order), only appends to the
destination and touches no other date; and in all four cases the opaque
subsequence of every touched file is unchanged.  `delete_bullet`, however,
removes — besides the target entry line — exactly the two-space-indented
lines whose trimmed form does not start with `- ` in the block immediately
following the entry, scanning past blank lines and stopping at the first
other line; every other line (opaque ones included) survives in order. -/
theorem opaque_lines_preserved (lines out : List Line) (id : Nat) (b : Bullet)
    (hf : (parse_bullets lines).find? (fun x => x.visible_index == id) = some b)
    (hmd : mark_done lines id = .ok out) :
    (∀ (ls : List Line) (text : Line) (pr : Option Nat) (tags notes : List Line),
      add_bullet ls text pr tags notes =
        ls ++ (open_marker ++ prio_render pr ++ trim text ++ tag_render tags) ::
          notes.map note_render) ∧
    out.length = lines.length ∧
    (∀ j, j ≠ b.line_index → out[j]? = lines[j]?) ∧
    out.filter is_opaque_line = lines.filter is_opaque_line ∧
    (∀ (fs : FS) (dfrom dto : Date) (jd : Nat) (b2 : Bullet), dfrom ≠ dto →
      (parse_bullets (fs dfrom)).find? (fun x => x.visible_index == jd) = some b2 →
      b2.completed = false →
      ∃ newline, (migrate_one (fun _ => false) fs dfrom dto jd).1 = none ∧
        (migrate_one (fun _ => false) fs dfrom dto jd).2 dfrom =
          (fs dfrom).eraseIdx b2.line_index ∧
        (migrate_one (fun _ => false) fs dfrom dto jd).2 dto = fs dto ++ [newline] ∧
        ∀ d, d ≠ dfrom → d ≠ dto →
          (migrate_one (fun _ => false) fs dfrom dto jd).2 d = fs d) ∧
    (∀ (fs : FS) (dfrom dto d : Date) (jd : Nat),
      ((migrate_one (fun _ => false) fs dfrom dto jd).2 d).filter is_opaque_line =
        (fs d).filter is_opaque_line) ∧
    (∀ (fs : FS) (dfrom dto : Date), dfrom ≠ dto →
      ∃ adds : List Line,
        (migrate_open (fun _ => false) fs dfrom dto).1 = none ∧
        (migrate_open (fun _ => false) fs dfrom dto).2 dfrom =
          keep_idxs_go (fs dfrom)
            (fun n => !decide (n ∈ ((parse_bullets (fs dfrom)).filter
              (fun x => !x.completed)).map (fun x => x.line_index))) 0 ∧
        (migrate_open (fun _ => false) fs dfrom dto).2 dto = fs dto ++ adds ∧
        ∀ d, d ≠ dfrom → d ≠ dto →
          (migrate_open (fun _ => false) fs dfrom dto).2 d = fs d) ∧
    (∀ (fs : FS) (dfrom dto d : Date),
      ((migrate_open (fun _ => false) fs dfrom dto).2 d).filter is_opaque_line =
        (fs d).filter is_opaque_line) ∧
    (delete_bullet lines id = .ok (lines.take b.line_index ++
      scan_keep (lines.drop (b.line_index + 1))) ∧
     ∃ pre keep, lines.drop (b.line_index + 1) = pre ++ keep ∧
       scan_keep (lines.drop (b.line_index + 1)) =
         pre.filter (fun l => decide (trim l = [])) ++ keep ∧
       ∀ l ∈ pre, trim l = [] ∨
         ((strip_pre ([' ', ' ']) l).isSome = true ∧
           (strip_pre (['-', ' ']) (trim_start l)).isSome = false)) :=
  ⟨fun _ _ _ _ _ => rfl,
    (mark_done_pointwise hf hmd).1,
    (mark_done_pointwise hf hmd).2,
    mark_done_filter hmd,
    fun fs dfrom dto jd b2 hne hf2 hc2 =>
      migrate_one_pointwise fs dfrom dto jd b2 hne hf2 hc2,
    fun fs dfrom dto d jd => migrate_one_filter fs dfrom dto jd d,
    fun fs dfrom dto hne => migrate_open_pointwise fs dfrom dto hne,
    fun fs dfrom dto d => migrate_open_filter fs dfrom dto d,
    delete_bullet_spec hf, scan_keep_decomp _⟩

theorem opaque_lines_preserved_witness :
    ((∀ (ls : List Line) (text : Line) (pr : Option Nat) (tags notes : List Line),
      add_bullet ls text pr tags notes =
        ls ++ (open_marker ++ prio_render pr ++ trim text ++ tag_render tags) ::
          notes.map note_render) ∧
    [done_marker ++ ['A']].length = [open_marker ++ ['A']].length ∧
    (∀ j, j ≠ 0 → [done_marker ++ ['A']][j]? = [open_marker ++ ['A']][j]?) ∧
    [done_marker ++ ['A']].filter is_opaque_line =
      [open_marker ++ ['A']].filter is_opaque_line ∧
    (∀ (fs : FS) (dfrom dto : Date) (jd : Nat) (b2 : Bullet), dfrom ≠ dto →
      (parse_bullets (fs dfrom)).find? (fun x => x.visible_index == jd) = some b2 →
      b2.completed = false →
      ∃ newline, (migrate_one (fun _ => false) fs dfrom dto jd).1 = none ∧
        (migrate_one (fun _ => false) fs dfrom dto jd).2 dfrom =
          (fs dfrom).eraseIdx b2.line_index ∧
        (migrate_one (fun _ => false) fs dfrom dto jd).2 dto = fs dto ++ [newline] ∧
        ∀ d, d ≠ dfrom → d ≠ dto →
          (migrate_one (fun _ => false) fs dfrom dto jd).2 d = fs d) ∧
    (∀ (fs : FS) (dfrom dto d : Date) (jd : Nat),
      ((migrate_one (fun _ => false) fs dfrom dto jd).2 d).filter is_opaque_line =
        (fs d).filter is_opaque_line) ∧
    (∀ (fs : FS) (dfrom dto : Date), dfrom ≠ dto →
      ∃ adds : List Line,
        (migrate_open (fun _ => false) fs dfrom dto).1 = none ∧
        (migrate_open (fun _ => false) fs dfrom dto).2 dfrom =
          keep_idxs_go (fs dfrom)
            (fun n => !decide (n ∈ ((parse_bullets (fs dfrom)).filter
              (fun x => !x.completed)).map (fun x => x.line_index))) 0 ∧
        (migrate_open (fun _ => false) fs dfrom dto).2 dto = fs dto ++ adds ∧
        ∀ d, d ≠ dfrom → d ≠ dto →
          (migrate_open (fun _ => false) fs dfrom dto).2 d = fs d) ∧
    (∀ (fs : FS) (dfrom dto d : Date),
      ((migrate_open (fun _ => false) fs dfrom dto).2 d).filter is_opaque_line =
        (fs d).filter is_opaque_line) ∧
    (delete_bullet [open_marker ++ ['A']] 1 = .ok ([open_marker ++ ['A']].take 0 ++
      scan_keep ([open_marker ++ ['A']].drop 1)) ∧
     ∃ pre keep, [open_marker ++ ['A']].drop 1 = pre ++ keep ∧
       scan_keep ([open_marker ++ ['A']].drop 1) =
         pre.filter (fun l => decide (trim l = [])) ++ keep ∧
       ∀ l ∈ pre, trim l = [] ∨
         ((strip_pre ([' ', ' ']) l).isSome = true ∧
           (strip_pre (['-', ' ']) (trim_start l)).isSome = false))) :=
  opaque_lines_preserved [open_marker ++ ['A']] [done_marker ++ ['A']] 1
    ⟨0, 1, false, ['A'], none, [], [], none, none⟩ (by decide) (by decide)

/-- C3 counterexample: the line `  x` matches neither the entry grammar nor
the note grammar (it is opaque), yet `delete_bullet` on the preceding entry
removes it: deleting entry 1 from `["- [ ] A", "  x"]` yields the empty
file instead of `["  x"]`. -/
theorem opaque_line_destroyed_cex :
    is_opaque_line ([' ', ' ', 'x']) = true ∧
    delete_bullet [open_marker ++ ['A'], [' ', ' ', 'x']] 1 = .ok [] ∧
    delete_bullet [open_marker ++ ['A'], [' ', ' ', 'x']] 1 ≠
      .ok [[' ', ' ', 'x']] := by
  refine ⟨by decide, by decide, by decide⟩
